import Mathlib

set_option maxHeartbeats 1000000

/-!
# Verification of the contact/subsidiary uploader

Shallow embedding of `src/uploader.py` and `src/review_tool.py`.

Conventions of the embedding:
* Python strings are Lean `String`s; most text processing is done on `List Char`
  (`String.data`).  The embedding covers the ASCII fragment of Python's text
  semantics: `str.lower`, `\w`, `\d` and `str.strip` are modelled with Lean's
  ASCII character predicates (`Char.toLower`, `Char.isAlphanum`, `Char.isDigit`,
  `Char.isWhitespace`).
* Python floats (similarity scores and thresholds) are modelled as `ℚ`.
  The code only compares and maximises scores, so this is faithful.
* The four rapidfuzz metrics (`fuzz.ratio`, `fuzz.partial_ratio`,
  `fuzz.token_sort_ratio`, `fuzz.token_set_ratio`) are an external library,
  not part of this repository; they are modelled as an abstract structure
  `RapidFuzz` of score functions that are nonnegative, which is the only
  property of the metrics the code under verification relies on.
* Firestore is an external collaborator; it is modelled by a trace of
  attempted write operations plus an oracle `outcome` deciding which
  writes succeed (exceptions in the Python client are modelled as a
  `false` outcome).
-/

/-- Python regex word characters (`\w`), ASCII fragment: alphanumerics and
underscore. -/
def isWordChar (c : Char) : Bool := c.isAlphanum || c = '_'

/-- `str.lower()` (ASCII fragment), character list version. -/
def pyLower (s : List Char) : List Char := s.map Char.toLower

/-- `str.strip()`: drop leading and trailing whitespace. -/
def pyStrip (s : List Char) : List Char :=
  ((s.dropWhile Char.isWhitespace).reverse.dropWhile Char.isWhitespace).reverse

/-- One `str.replace(c, r)` call where the replacement never contains the
searched character: character-wise substitution. -/
def replaceCharStr (c : Char) (r : List Char) (s : List Char) : List Char :=
  s.foldr (fun x acc => (if x = c then r else [x]) ++ acc) []

/-- The symbol-substitution block of `normalize_company_name`:
`& -> " and "`, `@ -> " at "`, `+ -> " plus "`, and `/`, `-`, `_` to space,
applied in the source order. -/
def symbolSubst (s : List Char) : List Char :=
  replaceCharStr '_' [' ']
    (replaceCharStr '-' [' ']
      (replaceCharStr '/' [' ']
        (replaceCharStr '+' (" plus ".data)
          (replaceCharStr '@' (" at ".data)
            (replaceCharStr '&' (" and ".data) s)))))

/-- `re.sub(r'[^\w\s]', ' ', s)`: every character that is neither a word
character nor whitespace becomes a space. -/
def nonWordToSpace (s : List Char) : List Char :=
  s.map (fun c => if isWordChar c || c.isWhitespace then c else ' ')

/-- Segment a character list into maximal runs of characters satisfying `p`
(`Sum.inl` runs) and the remaining individual characters (`Sum.inr`).
This is how a regex engine sees `\b`-delimited word boundaries: `Sum.inl`
runs are exactly the maximal `\w` runs when `p = isWordChar`. -/
def parseStep (p : Char → Bool) (c : Char) (acc : List (List Char ⊕ Char)) :
    List (List Char ⊕ Char) :=
  if p c then
    match acc with
    | Sum.inl w :: rest => Sum.inl (c :: w) :: rest
    | _ => Sum.inl [c] :: acc
  else Sum.inr c :: acc

def parseRuns (p : Char → Bool) (s : List Char) : List (List Char ⊕ Char) :=
  s.foldr (parseStep p) []

/-- Undo `parseRuns`: concatenate the segments back into a string. -/
def renderSegs (m : List (List Char ⊕ Char)) : List Char :=
  m.foldr (fun seg acc => (match seg with | Sum.inl w => w | Sum.inr c => [c]) ++ acc) []

/-- Apply `f` to every maximal word-character run of `s`, leaving all other
characters in place.  This implements `re.sub` for the whole-word patterns of
`COMPANY_SUFFIXES` and for `r'\b\d+\b'`: a match of such a pattern that
contains no `.` is exactly a maximal `\w` run equal to one of the pattern's
literal alternatives. -/
def subWordRuns (f : List Char → List Char) (s : List Char) : List Char :=
  renderSegs ((parseRuns isWordChar s).map
    (fun seg => match seg with | Sum.inl w => Sum.inl (f w) | Sum.inr c => Sum.inr c))

/-- The maximal `p`-runs of `s` (the word tokens when `p = isWordChar`). -/
def runsOf (p : Char → Bool) (s : List Char) : List (List Char) :=
  (parseRuns p s).foldr
    (fun seg acc => match seg with | Sum.inl w => w :: acc | Sum.inr _ => acc) []

/-- The `COMPANY_SUFFIXES` regex list from `uploader.py`, with each regex
expanded into its literal alternatives (an optional `\.?` or `s?` yields two
alternatives, longest first, matching the regex engine's greedy order).
A `\b`-delimited literal alternative matches iff it equals a maximal word
run, except that alternatives containing `.` (from `\bs\.a\.?\b` etc.) can
only match across a literal dot; by the time these patterns run,
`normalize_company_name` has already replaced every `.` by a space, so the
dotted alternatives are inert both in the source and in this model. -/
def COMPANY_SUFFIXES : List (List String) :=
  [["inc.", "inc"], ["incorporated"], ["corp.", "corp"], ["corporation"],
   ["llc.", "llc"], ["l.l.c.", "l.l.c"], ["limited"], ["ltd.", "ltd"],
   ["co.", "co"], ["company"], ["plc.", "plc"], ["p.l.c.", "p.l.c"],
   ["s.a.", "s.a"], ["sa"], ["ag"], ["gmbh"], ["llp.", "llp"],
   ["l.p.", "l.p"], ["holdings", "holding"], ["group"],
   ["enterprises", "enterprise"], ["industries", "industrie"],
   ["systems", "system"], ["technologies", "technologie"], ["tech"],
   ["intl.", "intl"], ["international"], ["global"]]

/-- Does the word run `w` match the suffix pattern given by alternatives
`alts`? -/
def matchesAlts (alts : List String) (w : List Char) : Bool :=
  alts.any (fun a => a.data == w)

/-- `re.sub(pat, ' ', s)` for one suffix pattern. -/
def removeSuffixPat (alts : List String) (s : List Char) : List Char :=
  subWordRuns (fun w => if matchesAlts alts w then [' '] else w) s

/-- The suffix-removal loop of `normalize_company_name`. -/
def removeSuffixes (s : List Char) : List Char :=
  COMPANY_SUFFIXES.foldl (fun acc alts => removeSuffixPat alts acc) s

/-- `re.sub(r'\b\d+\b', '', s)`: remove standalone numeric tokens. -/
def removeNumberTokens (s : List Char) : List Char :=
  subWordRuns (fun w => if w.all Char.isDigit then [] else w) s

/-- `re.sub(r'\s+', ' ', s)`: collapse every maximal whitespace run to a
single space.  The Boolean flag records whether the previous character was
whitespace (i.e. whether we are inside a run whose space was already
emitted). -/
def squeezeGo (b : Bool) : List Char → List Char
  | [] => []
  | c :: t =>
    if c.isWhitespace then
      (if b then squeezeGo true t else ' ' :: squeezeGo true t)
    else c :: squeezeGo false t

def squeezeWs (s : List Char) : List Char := squeezeGo false s

/-- Core of `normalize_company_name` on a nonempty string's characters,
stage for stage in the source order. -/
def normalizeCore (s : List Char) : List Char :=
  pyStrip (squeezeWs (removeNumberTokens (removeSuffixes
    (nonWordToSpace (symbolSubst (pyStrip (pyLower s)))))))

/-- `normalize_company_name(name)`.  `None` and non-strings are modelled by
`Option.none`; the `if not name` guard makes the empty string return
immediately. -/
def normalize_company_name : Option String → String
  | none => ""
  | some s => if s = "" then "" else ⟨normalizeCore s.data⟩

/-- `str.strip()` on `String`s. -/
def pyStripStr (s : String) : String := ⟨pyStrip s.data⟩

/-- `str.lower()` on `String`s. -/
def pyLowerStr (s : String) : String := ⟨pyLower s.data⟩

example : normalize_company_name (some "Acme Inc.") = "acme" := by decide
example : normalize_company_name (some "Acme S.A.") = "acme s a" := by decide
example : normalize_company_name (some "Beta-42 Tech/Global") = "beta" := by decide

/-! ## Fuzzy matching (`FuzzyMatcher` in `uploader.py`) -/

instance decEqNilList {α : Type _} (l : List α) : Decidable (l = []) :=
  decidable_of_iff (l.isEmpty = true) (by cases l <;> simp)

/-- The rapidfuzz metrics used by `calculate_similarity`, as an abstract
external collaborator.  `ratioFn`, `partRatioFn`, `tokenSortFn`, `tokenSetFn`
stand for `fuzz.ratio`, the partial-alignment ratio, the token-sort ratio and
the token-set ratio; each returns a nonnegative score (rapidfuzz scores lie
in `[0, 100]`). -/
structure RapidFuzz where
  ratioFn : String → String → ℚ
  partRatioFn : String → String → ℚ
  tokenSortFn : String → String → ℚ
  tokenSetFn : String → String → ℚ
  ratioFn_nonneg : ∀ a b, 0 ≤ ratioFn a b
  partRatioFn_nonneg : ∀ a b, 0 ≤ partRatioFn a b
  tokenSortFn_nonneg : ∀ a b, 0 ≤ tokenSortFn a b
  tokenSetFn_nonneg : ∀ a b, 0 ≤ tokenSetFn a b

/-- `FuzzyMatcher.__init__` configuration (thresholds default to
`90.0`, `80.0`, `80.0`). -/
structure FuzzyMatcher where
  auto_accept_threshold : ℚ := 90
  manual_review_threshold : ℚ := 80
  reject_threshold : ℚ := 80

/-- `FuzzyMatcher.calculate_similarity`: `0` if either string is empty,
otherwise the maximum of the four metrics. -/
def calculate_similarity (rf : RapidFuzz) (str1 str2 : String) : ℚ :=
  if str1 = "" ∨ str2 = "" then 0
  else
    max (max (max (rf.ratioFn str1 str2) (rf.partRatioFn str1 str2))
      (rf.tokenSortFn str1 str2)) (rf.tokenSetFn str1 str2)

/-- The strict-greater linear scan inside `find_best_match`. -/
def bestLoop {α : Type} (rf : RapidFuzz) (query : String) :
    List (String × α) → (Option α × ℚ) → (Option α × ℚ)
  | [], acc => acc
  | cand :: rest, acc =>
    let score := calculate_similarity rf query cand.1
    bestLoop rf query rest (if acc.2 < score then (some cand.2, score) else acc)

/-- `FuzzyMatcher.find_best_match` (with the default
`normalized_candidates=None`, as in every call site: the loop scores the
query against `cand[0]`, the candidate's normalized name). -/
def find_best_match {α : Type} (m : FuzzyMatcher) (rf : RapidFuzz)
    (query : String) (candidates : List (String × α)) :
    Option α × ℚ × String :=
  if query = "" ∨ candidates = [] then (none, 0, "reject")
  else
    let best := bestLoop rf query candidates (none, 0)
    let status :=
      if m.auto_accept_threshold ≤ best.2 then "auto_accept"
      else if m.manual_review_threshold ≤ best.2 then "manual_review"
      else "reject"
    (best.1, best.2, status)

/-- `FuzzyMatcher.find_all_matches`: score every candidate, sort by score
descending (stable, like Python's `list.sort` with `reverse=True`), keep the
first `limit`. -/
def find_all_matches {α : Type} (rf : RapidFuzz) (query : String)
    (candidates : List (String × α)) (limit : ℕ) : List (α × ℚ) :=
  if query = "" ∨ candidates = [] then []
  else
    ((candidates.map (fun cand => (cand.2, calculate_similarity rf query cand.1))).mergeSort
      (fun a b => b.2 ≤ a.2)).take limit

/-! ## Firebase client model (`FirebaseClient` in `uploader.py`)

Firestore itself is external; what the pipeline observes of a write is
(a) that the write was attempted and with which payload, and (b) whether it
reported success.  A `WriteOp` trace records attempted writes (none are
recorded in dry-run mode, where each update method returns `True` before
touching Firestore); the `outcome` oracle decides whether a real write
succeeds (a raised-and-caught Firestore exception is a `false` outcome). -/

inductive WriteOp where
  | social (brand_id : String) (social_updates : List (String × String))
  | parentSubs (parent_id : String) (subsidiary_ids : List String)
  | parentInfo (brand_id : String) (parent_company : Option String)
      (parent_id : Option String)
  deriving DecidableEq

structure FirebaseClient where
  outcome : WriteOp → Bool

/-- `FirebaseClient.update_brand_social` (for an initialized client):
returns whether it reported success, together with the attempted writes. -/
def update_brand_social (fc : FirebaseClient) (brand_id : String)
    (social_updates : List (String × String)) (dry_run : Bool) :
    Bool × List WriteOp :=
  if dry_run then (true, [])
  else (fc.outcome (.social brand_id social_updates), [.social brand_id social_updates])

/-- `FirebaseClient.update_brand_parent_info`: if both fields are `None`
there is nothing to update and it trivially succeeds. -/
def update_brand_parent_info (fc : FirebaseClient) (brand_id : String)
    (parent_company : Option String) (parent_id : Option String)
    (dry_run : Bool) : Bool × List WriteOp :=
  if dry_run then (true, [])
  else if parent_company = none ∧ parent_id = none then (true, [])
  else (fc.outcome (.parentInfo brand_id parent_company parent_id),
    [.parentInfo brand_id parent_company parent_id])

/-- `FirebaseClient.update_parent_subsidiaries`. -/
def update_parent_subsidiaries (fc : FirebaseClient) (parent_id : String)
    (subsidiary_ids : List String) (dry_run : Bool) : Bool × List WriteOp :=
  if dry_run then (true, [])
  else (fc.outcome (.parentSubs parent_id subsidiary_ids),
    [.parentSubs parent_id subsidiary_ids])

/-! ## The uploader pipeline (`DataUploader` in `uploader.py`) -/

/-- A CSV row / Firestore document field mapping: ordered key-value pairs
with `row.get(key, '')` lookup. -/
def Row : Type := List (String × String)

instance : DecidableEq Row := by unfold Row; infer_instance

def Row.get (r : Row) (k : String) : String :=
  match List.find? (fun kv => kv.1 == k) r with
  | some kv => kv.2
  | none => ""

/-- A brand document, as the pipeline uses it: `brand_id` (injected by
`get_all_brands`) and its display name field. -/
structure Brand where
  brand_id : String
  name : String
  deriving DecidableEq

/-- Items of `manual_review_queue`, one constructor per `type` tag. -/
inductive ReviewItem where
  | contact (company_name normalized : String) (brand_match : Brand)
      (score : ℚ) (contact_data : Row) (top_matches : List (Brand × ℚ))
  | subsidiary (parent_name : String) (parent_brand : Brand)
      (subsidiary_name normalized : String) (subsidiary_brand : Brand)
      (score : ℚ) (top_matches : List (Brand × ℚ))
  | subsidiaryParent (parent_name normalized : String) (parent_brand : Brand)
      (score : ℚ) (subsidiaries : List Row) (top_matches : List (Brand × ℚ))
  deriving DecidableEq

/-- Is this a `type == 'subsidiary_parent'` (group) item? -/
def ReviewItem.isGroup : ReviewItem → Bool
  | .subsidiaryParent _ _ _ _ _ _ => true
  | _ => false

/-- Items of `unmatched_companies`, one constructor per `type` tag. -/
inductive UnmatchedItem where
  | contact (company_name normalized : String) (score : ℚ)
  | subsidiaryParent (company_name normalized : String) (score : ℚ)
  | subsidiary (company_name parent normalized : String) (score : ℚ)
  deriving DecidableEq

/-- The `self.stats` counter dictionary. -/
structure RunStats where
  contacts_processed : ℕ := 0
  contacts_matched : ℕ := 0
  contacts_auto_accepted : ℕ := 0
  contacts_manual_review : ℕ := 0
  contacts_rejected : ℕ := 0
  contacts_unmatched : ℕ := 0
  subsidiaries_processed : ℕ := 0
  subsidiaries_matched : ℕ := 0
  subsidiaries_auto_accepted : ℕ := 0
  subsidiaries_manual_review : ℕ := 0
  subsidiaries_rejected : ℕ := 0
  subsidiaries_unmatched : ℕ := 0
  errors : ℕ := 0
  deriving DecidableEq

/-- The mutable state a `DataUploader` accumulates during a run, plus the
trace of attempted Firestore writes. -/
structure UploadState where
  stats : RunStats := {}
  manual_review_queue : List ReviewItem := []
  unmatched_companies : List UnmatchedItem := []
  trace : List WriteOp := []
  deriving DecidableEq

/-- Everything of an `UploadState` except the write trace: classifications,
queues and statistics. -/
def UploadState.obs (st : UploadState) :
    RunStats × List ReviewItem × List UnmatchedItem :=
  (st.stats, st.manual_review_queue, st.unmatched_companies)

/-- `DataUploader` run configuration. -/
structure UploaderCfg where
  matcher : FuzzyMatcher
  rf : RapidFuzz
  dry_run : Bool := false
  single_company : Option String := none

/-- `self.social_keys_mapping` (insertion order preserved, as in a Python
dict). -/
def social_keys_mapping : List (String × String) :=
  [("twitter_url", "twitter"), ("facebook_url", "facebook"),
   ("bluesky_url", "bluesky"), ("ir_email", "ir_email"),
   ("cs_email", "cs_email"), ("ir_page", "ir_page"),
   ("cs_page", "cs_page"), ("domain", "website")]

/-- The `social_updates` dict built in `_upload_contact_info` (and again in
the review tool): the non-empty stripped values of the mapped CSV fields. -/
def socialUpdates (contact : Row) : List (String × String) :=
  social_keys_mapping.foldl
    (fun acc kv =>
      let v := pyStripStr (contact.get kv.1)
      if v ≠ "" then acc ++ [(kv.2, v)] else acc) []

/-- The `self.single_company and name.lower() != self.single_company.lower()`
skip test (an empty configured name is falsy in Python and disables the
filter). -/
def singleSkip (single : Option String) (name : String) : Bool :=
  match single with
  | none => false
  | some s => if s = "" then false else pyLowerStr name ≠ pyLowerStr s

/-- `DataUploader._upload_contact_info`. -/
def uploadContactInfo (fc : FirebaseClient) (dry_run : Bool)
    (st : UploadState) (brand_id : String) (contact : Row) : UploadState :=
  let updates := socialUpdates contact
  if updates = [] then st
  else
    let r := update_brand_social fc brand_id updates dry_run
    { st with
      trace := st.trace ++ r.2
      stats := if r.1 then st.stats
        else { st.stats with errors := st.stats.errors + 1 } }

/-- `DataUploader._upload_subsidiary_info`: one parent-subsidiaries write
(whose failure is only logged), then one parent-info write per matched child
(whose failure increments `errors`). -/
def uploadSubsidiaryInfo (fc : FirebaseClient) (dry_run : Bool)
    (st : UploadState) (parent_brand_id : String) (parent_name : String)
    (matched : List (String × Brand × ℚ)) : UploadState :=
  let r := update_parent_subsidiaries fc parent_brand_id
    (matched.map (fun sub => sub.1)) dry_run
  let st1 := { st with trace := st.trace ++ r.2 }
  matched.foldl
    (fun acc sub =>
      let r2 := update_brand_parent_info fc sub.1 (some parent_name)
        (some parent_brand_id) dry_run
      { acc with
        trace := acc.trace ++ r2.2
        stats := if r2.1 then acc.stats
          else { acc.stats with errors := acc.stats.errors + 1 } })
    st1

/-- One iteration of the `process_contacts` loop. -/
def processContact (cfg : UploaderCfg) (fc : FirebaseClient)
    (brands : List (String × Brand)) (st : UploadState) (contact : Row) :
    UploadState :=
  let company_name := pyStripStr (contact.get "company_clean")
  if singleSkip cfg.single_company company_name then st
  else if company_name = "" then st
  else
    let st1 := { st with stats :=
      { st.stats with contacts_processed := st.stats.contacts_processed + 1 } }
    let normalized := normalize_company_name (some company_name)
    let r := find_best_match cfg.matcher cfg.rf normalized brands
    match r.1 with
    | none =>
      { st1 with
        stats := { st1.stats with contacts_rejected := st1.stats.contacts_rejected + 1 }
        unmatched_companies := st1.unmatched_companies ++
          [.contact company_name normalized r.2.1] }
    | some brand =>
      if r.2.2 = "reject" then
        { st1 with
          stats := { st1.stats with contacts_rejected := st1.stats.contacts_rejected + 1 }
          unmatched_companies := st1.unmatched_companies ++
            [.contact company_name normalized r.2.1] }
      else if r.2.2 = "auto_accept" then
        let st2 := { st1 with stats := { st1.stats with
          contacts_auto_accepted := st1.stats.contacts_auto_accepted + 1
          contacts_matched := st1.stats.contacts_matched + 1 } }
        uploadContactInfo fc cfg.dry_run st2 brand.brand_id contact
      else if r.2.2 = "manual_review" then
        { st1 with
          stats := { st1.stats with
            contacts_manual_review := st1.stats.contacts_manual_review + 1 }
          manual_review_queue := st1.manual_review_queue ++
            [.contact company_name normalized brand r.2.1 contact
              (find_all_matches cfg.rf normalized brands 5)] }
      else st1

/-- `DataUploader.process_contacts`. -/
def process_contacts (cfg : UploaderCfg) (fc : FirebaseClient)
    (brands : List (String × Brand)) (contacts : List Row)
    (st : UploadState) : UploadState :=
  contacts.foldl (processContact cfg fc brands) st

/-- Insert into the `defaultdict(list)` grouping, preserving first-insertion
key order as a Python dict does. -/
def addGroup (g : List (String × List Row)) (k : String) (r : Row) :
    List (String × List Row) :=
  match g with
  | [] => [(k, [r])]
  | (k0, rs) :: rest =>
    if k0 = k then (k0, rs ++ [r]) :: rest else (k0, rs) :: addGroup rest k r

/-- The grouping pass of `process_subsidiaries`: rows with a nonempty
(stripped) parent name and subsidiary name, grouped by raw parent name. -/
def buildGroups (rows : List Row) : List (String × List Row) :=
  rows.foldl
    (fun g row =>
      let parent_name := pyStripStr (row.get "company_name")
      let subsidiary_raw := pyStripStr (row.get "subsidiary_name_raw")
      if parent_name ≠ "" ∧ subsidiary_raw ≠ "" then addGroup g parent_name row
      else g) []

/-- One iteration of the inner (per-child) loop of `process_subsidiaries`.
The accumulator is the state plus the in-memory `matched_subsidiaries`
list. -/
def childStep (cfg : UploaderCfg) (brands : List (String × Brand))
    (parent_name : String) (parent_brand : Brand)
    (acc : UploadState × List (String × Brand × ℚ)) (sub_row : Row) :
    UploadState × List (String × Brand × ℚ) :=
  let st := acc.1
  let subsidiary_name := pyStripStr (sub_row.get "subsidiary_name_raw")
  let normalized_sub := normalize_company_name (some subsidiary_name)
  let r := find_best_match cfg.matcher cfg.rf normalized_sub brands
  match r.1 with
  | none =>
    ({ st with unmatched_companies := st.unmatched_companies ++
        [.subsidiary subsidiary_name parent_name normalized_sub r.2.1] }, acc.2)
  | some sub_brand =>
    if r.2.2 = "reject" then
      ({ st with unmatched_companies := st.unmatched_companies ++
          [.subsidiary subsidiary_name parent_name normalized_sub r.2.1] }, acc.2)
    else if r.2.2 = "auto_accept" then
      (st, acc.2 ++ [(sub_brand.brand_id, sub_brand, r.2.1)])
    else if r.2.2 = "manual_review" then
      ({ st with manual_review_queue := st.manual_review_queue ++
          [.subsidiary parent_name parent_brand subsidiary_name normalized_sub
            sub_brand r.2.1 (find_all_matches cfg.rf normalized_sub brands 5)] },
        acc.2)
    else (st, acc.2)

/-- One iteration of the outer (per-parent-group) loop of
`process_subsidiaries`. -/
def processGroup (cfg : UploaderCfg) (fc : FirebaseClient)
    (brands : List (String × Brand)) (st : UploadState)
    (grp : String × List Row) : UploadState :=
  let parent_name := grp.1
  let subs_list := grp.2
  if singleSkip cfg.single_company parent_name then st
  else
    let st1 := { st with stats := { st.stats with
      subsidiaries_processed := st.stats.subsidiaries_processed + 1 } }
    let normalized_parent := normalize_company_name (some parent_name)
    let r := find_best_match cfg.matcher cfg.rf normalized_parent brands
    match r.1 with
    | none =>
      { st1 with
        stats := { st1.stats with
          subsidiaries_rejected := st1.stats.subsidiaries_rejected + 1 }
        unmatched_companies := st1.unmatched_companies ++
          [.subsidiaryParent parent_name normalized_parent r.2.1] }
    | some parent_brand =>
      if r.2.2 = "reject" then
        { st1 with
          stats := { st1.stats with
            subsidiaries_rejected := st1.stats.subsidiaries_rejected + 1 }
          unmatched_companies := st1.unmatched_companies ++
            [.subsidiaryParent parent_name normalized_parent r.2.1] }
      else
        let inner := subs_list.foldl
          (childStep cfg brands parent_name parent_brand) (st1, [])
        let st2 := inner.1
        let matched := inner.2
        if r.2.2 = "auto_accept" ∧ matched ≠ [] then
          let st3 := { st2 with stats := { st2.stats with
            subsidiaries_auto_accepted := st2.stats.subsidiaries_auto_accepted + 1
            subsidiaries_matched := st2.stats.subsidiaries_matched + matched.length } }
          uploadSubsidiaryInfo fc cfg.dry_run st3 parent_brand.brand_id
            parent_name matched
        else if r.2.2 = "manual_review" then
          { st2 with
            stats := { st2.stats with
              subsidiaries_manual_review := st2.stats.subsidiaries_manual_review + 1 }
            manual_review_queue := st2.manual_review_queue ++
              [.subsidiaryParent parent_name normalized_parent parent_brand r.2.1
                subs_list (find_all_matches cfg.rf normalized_parent brands 5)] }
        else st2

/-- `DataUploader.process_subsidiaries`. -/
def process_subsidiaries (cfg : UploaderCfg) (fc : FirebaseClient)
    (brands : List (String × Brand)) (rows : List Row) (st : UploadState) :
    UploadState :=
  (buildGroups rows).foldl (processGroup cfg fc brands) st

/-- A full resolution run (`main` processes contacts, then subsidiaries). -/
def runUpload (cfg : UploaderCfg) (fc : FirebaseClient)
    (brands : List (String × Brand)) (contacts rows : List Row)
    (st : UploadState) : UploadState :=
  process_subsidiaries cfg fc brands rows (process_contacts cfg fc brands contacts st)

/-! ## The review tool (`review_tool.py`) -/

/-- `process_review_item(item, choice, firebase_client, dry_run)`.
Returns `(processed, attempted writes)`: `processed = True` means the item
is consumed, `False` means it stays in the remaining list.  Note the `'a'`
branch has cases only for the `contact` and `subsidiary` item types; a
`subsidiary_parent` (group) item falls through to the final `return True`
without any Firestore call. -/
def process_review_item (item : ReviewItem) (choice : String)
    (fc : FirebaseClient) (dry_run : Bool) : Bool × List WriteOp :=
  if pyLowerStr choice = "s" then (false, [])
  else if pyLowerStr choice = "r" then (true, [])
  else if pyLowerStr choice = "a" then
    match item with
    | .contact _ _ brand_match _ contact_data _ =>
      let updates := socialUpdates contact_data
      if updates = [] then (true, [])
      else
        let r := update_brand_social fc brand_match.brand_id updates dry_run
        if r.1 then (true, r.2) else (false, r.2)
    | .subsidiary parent_name parent_brand _ _ subsidiary_brand _ _ =>
      let r1 := update_parent_subsidiaries fc parent_brand.brand_id
        [subsidiary_brand.brand_id] dry_run
      let r2 := update_brand_parent_info fc subsidiary_brand.brand_id
        (some parent_name) (some parent_brand.brand_id) dry_run
      (true, r1.2 ++ r2.2)
    | .subsidiaryParent _ _ _ _ _ _ => (true, [])
  else (false, [])

/-- The interactive loop of `review_tool.main`, after the review file has
been loaded.  `pending` is the unvisited tail of the loaded queue,
`remaining` the accumulated `remaining_items` (skipped or kept items),
`inputs` the stream of raw lines typed at the prompt, and `count` the
`processed_count`.  Returns `some (saved, trace, processed_count)` where
`saved` is the item list written back; an exhausted input stream mid-session
is the unhandled `EOFError` crash, modelled as `none` (nothing is saved). -/
def reviewGo (fc : FirebaseClient) (dry_run : Bool) :
    List ReviewItem → List ReviewItem → List String → List WriteOp → ℕ →
    Option (List ReviewItem × List WriteOp × ℕ)
  | [], remaining, _, trace, count => some (remaining, trace, count)
  | _ :: _, _, [], _, _ => none
  | item :: rest, remaining, line :: inputs, trace, count =>
    let choice := pyLowerStr (pyStripStr line)
    if choice = "q" then some (remaining ++ (item :: rest), trace, count)
    else if choice = "a" ∨ choice = "r" ∨ choice = "s" then
      let r := process_review_item item choice fc dry_run
      if r.1 then reviewGo fc dry_run rest remaining inputs (trace ++ r.2) (count + 1)
      else reviewGo fc dry_run rest (remaining ++ [item]) inputs (trace ++ r.2) count
    else reviewGo fc dry_run (item :: rest) remaining inputs trace count

/-- A whole review session over a loaded queue. -/
def runReview (fc : FirebaseClient) (dry_run : Bool) (items : List ReviewItem)
    (inputs : List String) : Option (List ReviewItem × List WriteOp × ℕ) :=
  reviewGo fc dry_run items [] inputs [] 0

/-! ## Concrete test fixtures

Small concrete instantiations of the external collaborators, used to
evaluate the pipeline at specific inputs. -/

/-- A metric instantiation on which every comparison scores `0`. -/
def zeroFuzz : RapidFuzz where
  ratioFn := fun _ _ => 0
  partRatioFn := fun _ _ => 0
  tokenSortFn := fun _ _ => 0
  tokenSetFn := fun _ _ => 0
  ratioFn_nonneg := fun _ _ => le_refl 0
  partRatioFn_nonneg := fun _ _ => le_refl 0
  tokenSortFn_nonneg := fun _ _ => le_refl 0
  tokenSetFn_nonneg := fun _ _ => le_refl 0

/-- A metric instantiation scoring the length of the second string. -/
def lenFuzz : RapidFuzz where
  ratioFn := fun _ b => (b.length : ℚ)
  partRatioFn := fun _ b => (b.length : ℚ)
  tokenSortFn := fun _ b => (b.length : ℚ)
  tokenSetFn := fun _ b => (b.length : ℚ)
  ratioFn_nonneg := fun _ b => Nat.cast_nonneg b.length
  partRatioFn_nonneg := fun _ b => Nat.cast_nonneg b.length
  tokenSortFn_nonneg := fun _ b => Nat.cast_nonneg b.length
  tokenSetFn_nonneg := fun _ b => Nat.cast_nonneg b.length

/-- A metric instantiation on which every nonempty comparison scores `85`
(between the default thresholds, so everything is a manual review). -/
def fuzz85 : RapidFuzz where
  ratioFn := fun _ _ => 85
  partRatioFn := fun _ _ => 85
  tokenSortFn := fun _ _ => 85
  tokenSetFn := fun _ _ => 85
  ratioFn_nonneg := fun _ _ => by norm_num
  partRatioFn_nonneg := fun _ _ => by norm_num
  tokenSortFn_nonneg := fun _ _ => by norm_num
  tokenSetFn_nonneg := fun _ _ => by norm_num

/-- A metric instantiation on which every nonempty comparison scores `100`
(auto-accept at the default thresholds). -/
def fuzz100 : RapidFuzz where
  ratioFn := fun _ _ => 100
  partRatioFn := fun _ _ => 100
  tokenSortFn := fun _ _ => 100
  tokenSetFn := fun _ _ => 100
  ratioFn_nonneg := fun _ _ => by norm_num
  partRatioFn_nonneg := fun _ _ => by norm_num
  tokenSortFn_nonneg := fun _ _ => by norm_num
  tokenSetFn_nonneg := fun _ _ => by norm_num

/-- A Firestore oracle on which every write succeeds. -/
def fcTrue : FirebaseClient := ⟨fun _ => true⟩

/-- A Firestore oracle on which every write fails. -/
def fcFalse : FirebaseClient := ⟨fun _ => false⟩

/-- A Firestore oracle failing exactly the parent-subsidiaries writes. -/
def fcFailParentSubs : FirebaseClient :=
  ⟨fun op => match op with | .parentSubs _ _ => false | _ => true⟩

def brandZ : Brand := ⟨"b1", "Zeta"⟩

def brandY : Brand := ⟨"b2", "Yotta"⟩

/-- A candidate snapshot with a single brand whose normalized name is
`"zeta"`. -/
def brandsZ : List (String × Brand) := [("zeta", brandZ)]

def c1cands : List (String × ℕ) := [("aa", 1), ("bbb", 2), ("cc", 3)]

/-- A subsidiary CSV row: parent `Acme`, subsidiary `Beta`. -/
def subRow1 : Row := [("company_name", "Acme"), ("subsidiary_name_raw", "Beta")]

/-- A contact CSV row whose mapped social fields are all empty or
whitespace-only. -/
def contactRowBlank : Row :=
  [("company_clean", "Acme"), ("twitter_url", "  "), ("domain", "")]

/-- A contact CSV row with one nonempty social field. -/
def contactRowTw : Row :=
  [("company_clean", "Acme"), ("twitter_url", "x.com/acme")]

def contactItem1 : ReviewItem := .contact "Acme" "acme" brandZ 85 contactRowTw []

def subItem1 : ReviewItem := .subsidiary "Acme" brandZ "Beta" "beta" brandY 85 []

def groupItem1 : ReviewItem := .subsidiaryParent "Acme" "acme" brandZ 85 [subRow1] []

/-! ## Lemmas about `find_best_match` -/

/-- The scores `find_best_match` computes, one per candidate. -/
def candidateScores {α : Type} (rf : RapidFuzz) (query : String)
    (candidates : List (String × α)) : List ℚ :=
  candidates.map (fun cand => calculate_similarity rf query cand.1)

/-- The maximum candidate score (`0` for an empty candidate list). -/
def maxCandidateScore {α : Type} (rf : RapidFuzz) (query : String)
    (candidates : List (String × α)) : ℚ :=
  (candidateScores rf query candidates).foldr max 0

lemma calculate_similarity_nonneg (rf : RapidFuzz) (a b : String) :
    0 ≤ calculate_similarity rf a b := by
  unfold calculate_similarity
  split
  · exact le_refl 0
  · exact le_trans (rf.ratioFn_nonneg a b)
      (le_trans (le_max_left _ _) (le_trans (le_max_left _ _) (le_max_left _ _)))

lemma foldr_max_shift (l : List ℚ) (a x : ℚ) :
    l.foldr max (max a x) = max x (l.foldr max a) := by
  induction l with
  | nil => exact max_comm a x
  | cons y l ih =>
    simp only [List.foldr_cons, ih]
    rw [max_left_comm]

lemma le_foldr_max (l : List ℚ) (a : ℚ) : a ≤ l.foldr max a := by
  induction l with
  | nil => exact le_refl a
  | cons y l ih => exact le_trans ih (le_max_right _ _)

lemma foldr_max_mem (l : List ℚ) (h : l ≠ []) (h0 : ∀ x ∈ l, 0 ≤ x) :
    l.foldr max 0 ∈ l := by
  induction l with
  | nil => exact absurd rfl h
  | cons y l ih =>
    cases l with
    | nil =>
      simp only [List.foldr_cons, List.foldr_nil]
      rw [max_eq_left (h0 y (by simp))]
      simp
    | cons z l2 =>
      rcases le_total ((z :: l2).foldr max 0) y with hle | hle
      · simp only [List.foldr_cons] at *
        rw [max_eq_left hle]
        simp
      · have := ih (by simp) (fun x hx => h0 x (List.mem_cons_of_mem _ hx))
        simp only [List.foldr_cons] at *
        rw [max_eq_right hle]
        exact List.mem_cons_of_mem _ this

lemma candidateScores_cons {α : Type} (rf : RapidFuzz) (query : String)
    (c : String × α) (cs : List (String × α)) :
    candidateScores rf query (c :: cs) =
      calculate_similarity rf query c.1 :: candidateScores rf query cs := rfl

lemma bestLoop_cons {α : Type} (rf : RapidFuzz) (query : String)
    (c : String × α) (cs : List (String × α)) (acc : Option α × ℚ) :
    bestLoop rf query (c :: cs) acc =
      bestLoop rf query cs
        (if acc.2 < calculate_similarity rf query c.1
          then (some c.2, calculate_similarity rf query c.1) else acc) := rfl

lemma bestLoop_snd {α : Type} (rf : RapidFuzz) (query : String)
    (cands : List (String × α)) (acc : Option α × ℚ) :
    (bestLoop rf query cands acc).2 =
      (candidateScores rf query cands).foldr max acc.2 := by
  induction cands generalizing acc with
  | nil => rfl
  | cons c cs ih =>
    rw [bestLoop_cons, candidateScores_cons, List.foldr_cons]
    by_cases h : acc.2 < calculate_similarity rf query c.1
    · rw [if_pos h, ih]
      show (candidateScores rf query cs).foldr max (calculate_similarity rf query c.1) = _
      conv_lhs =>
        rw [show calculate_similarity rf query c.1 =
          max acc.2 (calculate_similarity rf query c.1) from
          (max_eq_right (le_of_lt h)).symm]
      rw [foldr_max_shift]
    · rw [if_neg h, ih]
      have h1 : calculate_similarity rf query c.1 ≤ acc.2 := le_of_not_lt h
      exact (max_eq_right (le_trans h1 (le_foldr_max _ _))).symm

lemma find?_score_cons_of_ne {α : Type} (rf : RapidFuzz) (query : String)
    (c : String × α) (cs : List (String × α)) (M : ℚ)
    (h : calculate_similarity rf query c.1 ≠ M) :
    List.find? (fun cand => calculate_similarity rf query cand.1 == M) (c :: cs) =
      List.find? (fun cand => calculate_similarity rf query cand.1 == M) cs :=
  List.find?_cons_of_neg _ (by simp [h])

lemma find?_score_cons_of_eq {α : Type} (rf : RapidFuzz) (query : String)
    (c : String × α) (cs : List (String × α)) (M : ℚ)
    (h : calculate_similarity rf query c.1 = M) :
    List.find? (fun cand => calculate_similarity rf query cand.1 == M) (c :: cs) =
      some c :=
  List.find?_cons_of_pos _ (by simp [h])

lemma bestLoop_fst {α : Type} (rf : RapidFuzz) (query : String)
    (cands : List (String × α)) (acc : Option α × ℚ) :
    (bestLoop rf query cands acc).1 =
      if acc.2 < (candidateScores rf query cands).foldr max acc.2 then
        (cands.find? (fun cand => calculate_similarity rf query cand.1 ==
          (candidateScores rf query cands).foldr max acc.2)).map (fun cand => cand.2)
      else acc.1 := by
  induction cands generalizing acc with
  | nil =>
    simp [bestLoop, candidateScores]
  | cons c cs ih =>
    rw [bestLoop_cons, candidateScores_cons, List.foldr_cons]
    by_cases h : acc.2 < calculate_similarity rf query c.1
    · rw [if_pos h, ih]
      show (if (calculate_similarity rf query c.1) <
          (candidateScores rf query cs).foldr max (calculate_similarity rf query c.1)
        then _ else _) = _
      have hM : (candidateScores rf query cs).foldr max
            (calculate_similarity rf query c.1) =
          max (calculate_similarity rf query c.1)
            ((candidateScores rf query cs).foldr max acc.2) := by
        conv_lhs =>
          rw [show calculate_similarity rf query c.1 =
            max acc.2 (calculate_similarity rf query c.1) from
            (max_eq_right (le_of_lt h)).symm]
        rw [foldr_max_shift]
      have hcond : acc.2 < max (calculate_similarity rf query c.1)
          ((candidateScores rf query cs).foldr max acc.2) :=
        lt_of_lt_of_le h (le_max_left _ _)
      rw [if_pos hcond]
      by_cases h2 : calculate_similarity rf query c.1 <
          (candidateScores rf query cs).foldr max (calculate_similarity rf query c.1)
      · rw [if_pos h2]
        have hne : calculate_similarity rf query c.1 ≠
            max (calculate_similarity rf query c.1)
              ((candidateScores rf query cs).foldr max acc.2) := by
          rw [← hM]
          exact ne_of_lt h2
        rw [find?_score_cons_of_ne rf query c cs _ hne, hM]
      · rw [if_neg h2]
        have hMs : (candidateScores rf query cs).foldr max
            (calculate_similarity rf query c.1) = calculate_similarity rf query c.1 :=
          le_antisymm (le_of_not_lt h2) (le_foldr_max _ _)
        have hpos : calculate_similarity rf query c.1 =
            max (calculate_similarity rf query c.1)
              ((candidateScores rf query cs).foldr max acc.2) := by
          rw [← hM, hMs]
        rw [find?_score_cons_of_eq rf query c cs _ hpos]
        rfl
    · rw [if_neg h, ih]
      have hsa : calculate_similarity rf query c.1 ≤ acc.2 := le_of_not_lt h
      have hM : max (calculate_similarity rf query c.1)
            ((candidateScores rf query cs).foldr max acc.2) =
          (candidateScores rf query cs).foldr max acc.2 :=
        max_eq_right (le_trans hsa (le_foldr_max _ _))
      rw [hM]
      by_cases h2 : acc.2 < (candidateScores rf query cs).foldr max acc.2
      · rw [if_pos h2, if_pos h2]
        have hne : calculate_similarity rf query c.1 ≠
            (candidateScores rf query cs).foldr max acc.2 :=
          ne_of_lt (lt_of_le_of_lt hsa h2)
        rw [find?_score_cons_of_ne rf query c cs _ hne]
      · rw [if_neg h2, if_neg h2]

lemma maxCandidateScore_mem {α : Type} (rf : RapidFuzz) (query : String)
    (candidates : List (String × α)) (hc : candidates ≠ []) :
    maxCandidateScore rf query candidates ∈ candidateScores rf query candidates := by
  apply foldr_max_mem
  · simp [candidateScores, hc]
  · intro x hx
    rcases List.mem_map.mp hx with ⟨cand, _, rfl⟩
    exact calculate_similarity_nonneg rf query cand.1

/-- The full behavioural description of `find_best_match`. -/
lemma find_best_match_spec {α : Type} (m : FuzzyMatcher) (rf : RapidFuzz)
    (query : String) (candidates : List (String × α)) :
    ((query = "" ∨ candidates = []) →
      find_best_match m rf query candidates = (none, 0, "reject")) ∧
    (query ≠ "" → candidates ≠ [] →
      (find_best_match m rf query candidates).2.1 =
          maxCandidateScore rf query candidates ∧
      maxCandidateScore rf query candidates ∈ candidateScores rf query candidates ∧
      (find_best_match m rf query candidates).2.2 =
        (if m.auto_accept_threshold ≤ maxCandidateScore rf query candidates
          then "auto_accept"
          else if m.manual_review_threshold ≤ maxCandidateScore rf query candidates
          then "manual_review" else "reject") ∧
      (0 < maxCandidateScore rf query candidates →
        (find_best_match m rf query candidates).1 =
          (candidates.find? (fun cand => calculate_similarity rf query cand.1 ==
            maxCandidateScore rf query candidates)).map (fun cand => cand.2)) ∧
      (maxCandidateScore rf query candidates = 0 →
        (find_best_match m rf query candidates).1 = none)) := by
  constructor
  · intro h
    unfold find_best_match
    rw [if_pos h]
  · intro hq hc
    have hcond : ¬(query = "" ∨ candidates = []) := by
      rintro (h | h)
      · exact hq h
      · exact hc h
    have hM0 : maxCandidateScore rf query candidates =
        (candidateScores rf query candidates).foldr max
          ((none : Option α), (0 : ℚ)).2 := rfl
    refine ⟨?_, maxCandidateScore_mem rf query candidates hc, ?_, ?_, ?_⟩
    · simp only [find_best_match, if_neg hcond]
      rw [bestLoop_snd, ← hM0]
    · simp only [find_best_match, if_neg hcond]
      rw [bestLoop_snd, ← hM0]
    · intro hpos
      simp only [find_best_match, if_neg hcond]
      rw [bestLoop_fst, ← hM0]
      rw [if_pos (show ((none : Option α), (0 : ℚ)).2 <
        maxCandidateScore rf query candidates from hpos)]
    · intro hzero
      simp only [find_best_match, if_neg hcond]
      rw [bestLoop_fst, ← hM0]
      rw [if_neg (show ¬ ((none : Option α), (0 : ℚ)).2 <
        maxCandidateScore rf query candidates by rw [hzero]; exact lt_irrefl 0)]

/-! ## Claim C1 -/

/-- C1, counterexample.  The claim says the returned entity is the first
candidate achieving the maximal score whenever the query and candidate list
are nonempty.  With the nonempty query `"acme"` and the nonempty candidate
list `[("", 0)]` (a brand whose normalized name is empty, so
`calculate_similarity` short-circuits to `0` whatever the metrics), every
candidate scores `0`; the strict-greater scan never replaces its initial
`(None, 0.0)` accumulator, so `find_best_match` returns a `None` entity
instead of the first maximal candidate. -/
theorem C1_counterexample :
    find_best_match {} zeroFuzz "acme" [("", (0 : ℕ))] = (none, 0, "reject") ∧
      ("acme" : String) ≠ "" ∧ [("", (0 : ℕ))] ≠ ([] : List (String × ℕ)) := by
  refine ⟨?_, by decide, by decide⟩
  decide

/-- C1, amended: for nonempty query and candidates, `find_best_match`
returns a score equal to the maximum over all candidates' scores (and that
maximum is attained by some candidate), classifies that score against the
two thresholds, and returns as entity the first candidate (in list order)
achieving the maximum provided the maximum is positive; when the maximum is
`0` the entity is `None`.  If the query is empty or the candidate list is
empty it returns `(None, 0, 'reject')`. -/
theorem C1_find_best_match_optimal {α : Type} (m : FuzzyMatcher)
    (rf : RapidFuzz) (query : String) (candidates : List (String × α)) :
    ((query = "" ∨ candidates = []) →
      find_best_match m rf query candidates = (none, 0, "reject")) ∧
    (query ≠ "" → candidates ≠ [] →
      (find_best_match m rf query candidates).2.1 =
          maxCandidateScore rf query candidates ∧
      maxCandidateScore rf query candidates ∈ candidateScores rf query candidates ∧
      (find_best_match m rf query candidates).2.2 =
        (if m.auto_accept_threshold ≤ maxCandidateScore rf query candidates
          then "auto_accept"
          else if m.manual_review_threshold ≤ maxCandidateScore rf query candidates
          then "manual_review" else "reject") ∧
      (0 < maxCandidateScore rf query candidates →
        (find_best_match m rf query candidates).1 =
          (candidates.find? (fun cand => calculate_similarity rf query cand.1 ==
            maxCandidateScore rf query candidates)).map (fun cand => cand.2)) ∧
      (maxCandidateScore rf query candidates = 0 →
        (find_best_match m rf query candidates).1 = none)) :=
  find_best_match_spec m rf query candidates

/-- C1, witness: the amended theorem evaluated on a three-candidate list
with scores `2, 3, 2`. -/
theorem C1_witness :
    (("ab" : String) ≠ "" ∧ c1cands ≠ []) ∧
      (find_best_match {} lenFuzz "ab" c1cands).2.1 =
        maxCandidateScore lenFuzz "ab" c1cands :=
  ⟨⟨by decide, by decide⟩,
    ((C1_find_best_match_optimal {} lenFuzz "ab" c1cands).2
      (by decide) (by decide)).1⟩

/-! ## Claim C4 -/

/-- C4, counterexample.  The claim says a nonempty candidate set never
yields a `None` entity.  With the nonempty query `"beta"` and the nonempty
candidate list `[("", "x1")]`, every score is `0` and the entity is
`None`. -/
theorem C4_counterexample :
    (find_best_match {} zeroFuzz "beta" [("", "x1")]).1 = none ∧
      ("beta" : String) ≠ "" ∧ [("", "x1")] ≠ ([] : List (String × String)) := by
  refine ⟨?_, by decide, by decide⟩
  decide

/-- C4, amended: provided both thresholds are positive (they default to
`90` and `80`), the entity of a `find_best_match` result is `None` iff the
returned score is `0` (which covers, but is not limited to, the empty-query
and empty-candidate cases), and a `None` entity always comes with
disposition `'reject'`. -/
theorem C4_entity_none_iff {α : Type} (m : FuzzyMatcher) (rf : RapidFuzz)
    (query : String) (candidates : List (String × α))
    (h1 : 0 < m.manual_review_threshold) (h2 : 0 < m.auto_accept_threshold) :
    ((find_best_match m rf query candidates).1 = none ↔
      (find_best_match m rf query candidates).2.1 = 0) ∧
    ((find_best_match m rf query candidates).1 = none →
      (find_best_match m rf query candidates).2.2 = "reject") := by
  by_cases hq : query = "" ∨ candidates = []
  · rw [(find_best_match_spec m rf query candidates).1 hq]
    exact ⟨by simp, fun _ => rfl⟩
  · push_neg at hq
    obtain ⟨hqe, hce⟩ := hq
    obtain ⟨hsnd, hmem, hstatus, hpos, hzero⟩ :=
      (find_best_match_spec m rf query candidates).2 hqe hce
    have key : (find_best_match m rf query candidates).1 = none ↔
        maxCandidateScore rf query candidates = 0 := by
      constructor
      · intro hnone
        by_contra hne
        have hMpos : 0 < maxCandidateScore rf query candidates := by
          rcases lt_or_eq_of_le (le_foldr_max (candidateScores rf query candidates) 0)
            with h | h
          · exact h
          · exact absurd h.symm hne
        rw [hpos hMpos] at hnone
        rcases List.mem_map.mp hmem with ⟨cand, hcand, hsim⟩
        have hfind : ((candidates.find? (fun cand =>
            calculate_similarity rf query cand.1 ==
              maxCandidateScore rf query candidates))).isSome := by
          rw [List.find?_isSome]
          exact ⟨cand, hcand, by simp [hsim]⟩
        rcases Option.isSome_iff_exists.mp hfind with ⟨x, hx⟩
        rw [hx] at hnone
        simp at hnone
      · exact hzero
    constructor
    · rw [key, hsnd]
    · intro hnone
      have hM0 : maxCandidateScore rf query candidates = 0 := key.mp hnone
      rw [hstatus, hM0]
      rw [if_neg (not_le.mpr h2), if_neg (not_le.mpr h1)]

/-- C4, witness: the amended theorem evaluated at the default thresholds on
a single all-zero-score candidate. -/
theorem C4_witness :
    ((0 : ℚ) < 80 ∧ (0 : ℚ) < 90) ∧
      ((find_best_match {} zeroFuzz "a" [("b", (1 : ℕ))]).1 = none ↔
        (find_best_match {} zeroFuzz "a" [("b", (1 : ℕ))]).2.1 = 0) :=
  ⟨⟨by norm_num, by norm_num⟩,
    (C4_entity_none_iff {} zeroFuzz "a" [("b", (1 : ℕ))]
      (by norm_num [FuzzyMatcher.manual_review_threshold])
      (by norm_num [FuzzyMatcher.auto_accept_threshold])).1⟩

/-! ## Toolkit: `parseRuns`, `renderSegs`, `runsOf` -/

lemma parseRuns_nil (p : Char → Bool) : parseRuns p [] = [] := rfl

lemma parseRuns_cons_neg (p : Char → Bool) (c : Char) (t : List Char)
    (h : p c = false) :
    parseRuns p (c :: t) = Sum.inr c :: parseRuns p t := by
  show parseStep p c (parseRuns p t) = _
  unfold parseStep
  rw [h]
  simp

lemma parseRuns_cons_pos_inl (p : Char → Bool) (c : Char) (t : List Char)
    (w : List Char) (r : List (List Char ⊕ Char)) (h : p c = true)
    (ht : parseRuns p t = Sum.inl w :: r) :
    parseRuns p (c :: t) = Sum.inl (c :: w) :: r := by
  show parseStep p c (parseRuns p t) = _
  rw [ht]
  simp [parseStep, h]

lemma parseRuns_cons_pos_new (p : Char → Bool) (c : Char) (t : List Char)
    (h : p c = true)
    (ht : ∀ w r, parseRuns p t ≠ Sum.inl w :: r) :
    parseRuns p (c :: t) = Sum.inl [c] :: parseRuns p t := by
  show parseStep p c (parseRuns p t) = _
  cases hm : parseRuns p t with
  | nil => simp [parseStep, h]
  | cons seg r =>
    cases seg with
    | inl w => exact absurd hm (ht w r)
    | inr d => simp [parseStep, h]

lemma renderSegs_nil : renderSegs [] = [] := rfl

lemma renderSegs_cons_inl (w : List Char) (m : List (List Char ⊕ Char)) :
    renderSegs (Sum.inl w :: m) = w ++ renderSegs m := rfl

lemma renderSegs_cons_inr (c : Char) (m : List (List Char ⊕ Char)) :
    renderSegs (Sum.inr c :: m) = c :: renderSegs m := rfl

lemma renderSegs_parseRuns (p : Char → Bool) (s : List Char) :
    renderSegs (parseRuns p s) = s := by
  induction s with
  | nil => rfl
  | cons c t ih =>
    cases hp : p c with
    | false => rw [parseRuns_cons_neg p c t hp, renderSegs_cons_inr, ih]
    | true =>
      match hm : parseRuns p t with
      | [] =>
        rw [parseRuns_cons_pos_new p c t hp (by rw [hm]; intro w r h; exact absurd h (by simp)),
          hm, renderSegs_cons_inl]
        rw [hm] at ih
        simp [renderSegs_nil] at ih
        simp [ih, renderSegs_nil]
      | Sum.inl w :: r =>
        rw [parseRuns_cons_pos_inl p c t w r hp hm, renderSegs_cons_inl]
        rw [hm, renderSegs_cons_inl] at ih
        rw [List.cons_append, ih]
      | Sum.inr d :: r =>
        rw [parseRuns_cons_pos_new p c t hp (by rw [hm]; intro w r2 h; exact absurd h (by simp)),
          renderSegs_cons_inl, ih]
        simp

/-- Well-formedness of a segment list as produced by `parseRuns`:
`Sum.inl` segments are nonempty `p`-runs, `Sum.inr` characters fail `p`,
and no `Sum.inl` segment is immediately followed by another. -/
inductive SegsOk (p : Char → Bool) : List (List Char ⊕ Char) → Prop
  | nil : SegsOk p []
  | consR (c : Char) (m : List (List Char ⊕ Char)) (hc : p c = false)
      (hm : SegsOk p m) : SegsOk p (Sum.inr c :: m)
  | consL (w : List Char) (m : List (List Char ⊕ Char)) (hw : w ≠ [])
      (hall : ∀ c ∈ w, p c = true)
      (hhead : m = [] ∨ ∃ c m2, m = Sum.inr c :: m2)
      (hm : SegsOk p m) : SegsOk p (Sum.inl w :: m)

lemma parseRuns_segsOk (p : Char → Bool) (s : List Char) :
    SegsOk p (parseRuns p s) := by
  induction s with
  | nil => exact SegsOk.nil
  | cons c t ih =>
    cases hp : p c with
    | false =>
      rw [parseRuns_cons_neg p c t hp]
      exact SegsOk.consR c _ hp ih
    | true =>
      match hm : parseRuns p t with
      | [] =>
        rw [parseRuns_cons_pos_new p c t hp (by rw [hm]; intro w r h; exact absurd h (by simp)),
          hm]
        exact SegsOk.consL [c] [] (by simp) (by simpa using hp) (Or.inl rfl) SegsOk.nil
      | Sum.inl w :: r =>
        rw [parseRuns_cons_pos_inl p c t w r hp hm]
        rw [hm] at ih
        cases ih with
        | consL w m hw hall hhead hmk =>
          refine SegsOk.consL (c :: w) r (by simp) ?_ hhead hmk
          intro d hd
          rcases List.mem_cons.mp hd with h | h
          · rw [h]; exact hp
          · exact hall d h
      | Sum.inr d :: r =>
        rw [parseRuns_cons_pos_new p c t hp (by rw [hm]; intro w r2 h; exact absurd h (by simp)),
          hm]
        rw [hm] at ih
        exact SegsOk.consL [c] _ (by simp) (by simpa using hp)
          (Or.inr ⟨d, r, rfl⟩) ih

/-- The token list of a segment list. -/
def runsOfSegs (m : List (List Char ⊕ Char)) : List (List Char) :=
  m.foldr (fun seg acc => match seg with | Sum.inl w => w :: acc | Sum.inr _ => acc) []

lemma runsOf_eq_runsOfSegs (p : Char → Bool) (s : List Char) :
    runsOf p s = runsOfSegs (parseRuns p s) := rfl

lemma runsOfSegs_cons_inl (w : List Char) (m : List (List Char ⊕ Char)) :
    runsOfSegs (Sum.inl w :: m) = w :: runsOfSegs m := rfl

lemma runsOfSegs_cons_inr (c : Char) (m : List (List Char ⊕ Char)) :
    runsOfSegs (Sum.inr c :: m) = runsOfSegs m := rfl

lemma mem_runsOfSegs (w : List Char) (m : List (List Char ⊕ Char)) :
    w ∈ runsOfSegs m ↔ Sum.inl w ∈ m := by
  induction m with
  | nil => simp [runsOfSegs]
  | cons seg m ih =>
    cases seg with
    | inl v => rw [runsOfSegs_cons_inl]; simp [ih]
    | inr c => rw [runsOfSegs_cons_inr]; simp [ih]

lemma runsOf_cons_neg (p : Char → Bool) (c : Char) (t : List Char)
    (h : p c = false) : runsOf p (c :: t) = runsOf p t := by
  rw [runsOf_eq_runsOfSegs, parseRuns_cons_neg p c t h, runsOfSegs_cons_inr,
    ← runsOf_eq_runsOfSegs]

lemma segsOk_inl_props (p : Char → Bool) (m : List (List Char ⊕ Char))
    (hm : SegsOk p m) (w : List Char) (hw : Sum.inl w ∈ m) :
    w ≠ [] ∧ ∀ c ∈ w, p c = true := by
  induction hm with
  | nil => simp at hw
  | consR c m hc hmk ih => exact ih (by simpa using hw)
  | consL v m hv hall hhead hmk ih =>
    rcases List.mem_cons.mp hw with h | h
    · rcases Sum.inl.inj h.symm with rfl; exact ⟨hv, hall⟩
    · exact ih h

/-- Member tokens are nonempty `p`-runs. -/
lemma runsOf_props (p : Char → Bool) (s : List Char) (w : List Char)
    (hw : w ∈ runsOf p s) : w ≠ [] ∧ ∀ c ∈ w, p c = true := by
  rw [runsOf_eq_runsOfSegs, mem_runsOfSegs] at hw
  exact segsOk_inl_props p _ (parseRuns_segsOk p s) w hw

/-- `parseRuns` of a nonempty `p`-run followed by a list that does not start
with a `p`-character. -/
lemma parseRuns_append_run (p : Char → Bool) (w : List Char) (t : List Char)
    (hw : w ≠ []) (hall : ∀ c ∈ w, p c = true)
    (hhead : t = [] ∨ ∃ d t2, t = d :: t2 ∧ p d = false) :
    parseRuns p (w ++ t) = Sum.inl w :: parseRuns p t := by
  induction w with
  | nil => exact absurd rfl hw
  | cons c w2 ih =>
    have hpc : p c = true := hall c (by simp)
    cases w2 with
    | nil =>
      have hshape : ∀ v r, parseRuns p t ≠ Sum.inl v :: r := by
        rcases hhead with rfl | ⟨d, t2, rfl, hd⟩
        · intro v r h; exact absurd h (by simp [parseRuns_nil])
        · intro v r h
          rw [parseRuns_cons_neg p d t2 hd] at h
          exact absurd h (by simp)
      simpa using parseRuns_cons_pos_new p c t hpc hshape
    | cons e w3 =>
      have ih2 := ih (by simp) (fun d hd => hall d (List.mem_cons_of_mem _ hd))
      show parseRuns p (c :: (e :: w3 ++ t)) = _
      rw [parseRuns_cons_pos_inl p c (e :: w3 ++ t) (e :: w3) (parseRuns p t) hpc ih2]

lemma runsOf_append_run (p : Char → Bool) (w : List Char) (t : List Char)
    (hw : w ≠ []) (hall : ∀ c ∈ w, p c = true)
    (hhead : t = [] ∨ ∃ d t2, t = d :: t2 ∧ p d = false) :
    runsOf p (w ++ t) = w :: runsOf p t := by
  rw [runsOf_eq_runsOfSegs, parseRuns_append_run p w t hw hall hhead,
    runsOfSegs_cons_inl, ← runsOf_eq_runsOfSegs]

/-! ## Toolkit: `subWordRuns` -/

/-- Mapping a run-transformer over the `Sum.inl` segments. -/
def mapSegs (f : List Char → List Char) (m : List (List Char ⊕ Char)) :
    List (List Char ⊕ Char) :=
  m.map (fun seg => match seg with | Sum.inl w => Sum.inl (f w) | Sum.inr c => Sum.inr c)

lemma subWordRuns_eq (f : List Char → List Char) (s : List Char) :
    subWordRuns f s = renderSegs (mapSegs f (parseRuns isWordChar s)) := rfl

lemma space_not_wordChar : isWordChar ' ' = false := by decide

/-- How `subWordRuns` transforms the token list, when the transformer either
keeps a run, replaces it by a space, or deletes it (the three cases used by
the suffix and number passes). -/
lemma runsOf_renderSegs_mapSegs (f : List Char → List Char)
    (hf : ∀ w, f w = w ∨ f w = [' '] ∨ f w = [])
    (m : List (List Char ⊕ Char)) (hm : SegsOk isWordChar m) :
    runsOf isWordChar (renderSegs (mapSegs f m)) =
      (runsOfSegs m).filter (fun w => f w == w) := by
  induction hm with
  | nil => simp [mapSegs, renderSegs_nil, runsOfSegs, runsOf_eq_runsOfSegs, parseRuns_nil]
  | consR c m hc hmk ih =>
    show runsOf isWordChar (renderSegs (Sum.inr c :: mapSegs f m)) = _
    rw [renderSegs_cons_inr, runsOf_cons_neg isWordChar c _ hc, ih,
      runsOfSegs_cons_inr]
  | consL w m hw hall hhead hmk ih =>
    show runsOf isWordChar (renderSegs (Sum.inl (f w) :: mapSegs f m)) = _
    rw [renderSegs_cons_inl, runsOfSegs_cons_inl]
    have hX : renderSegs (mapSegs f m) = [] ∨
        ∃ d t2, renderSegs (mapSegs f m) = d :: t2 ∧ isWordChar d = false := by
      rcases hhead with rfl | ⟨c, m2, rfl⟩
      · left; rfl
      · right
        cases hmk with
        | consR c m2 hc hmk2 =>
          exact ⟨c, renderSegs (mapSegs f m2), by rw [show mapSegs f (Sum.inr c :: m2) =
            Sum.inr c :: mapSegs f m2 from rfl, renderSegs_cons_inr], hc⟩
    rcases hf w with hfw | hfw | hfw
    · rw [hfw, runsOf_append_run isWordChar w _ hw hall hX, ih, List.filter_cons]
      have hbeq : (f w == w) = true := by simp [hfw]
      simp [hbeq]
    · have hne : w ≠ [' '] := by
        intro hcontra
        have := hall ' ' (by rw [hcontra]; simp)
        rw [space_not_wordChar] at this
        exact absurd this (by simp)
      rw [hfw, show ([' '] : List Char) ++ renderSegs (mapSegs f m) =
          ' ' :: renderSegs (mapSegs f m) from rfl,
        runsOf_cons_neg isWordChar ' ' _ space_not_wordChar, ih, List.filter_cons]
      have hbeq : (f w == w) = false := by
        rw [hfw, beq_eq_false_iff_ne]
        intro hcontra
        exact hne hcontra.symm
      simp [hbeq]
    · rw [hfw, List.nil_append, ih, List.filter_cons]
      have hbeq : (f w == w) = false := by
        rw [hfw, beq_eq_false_iff_ne]
        intro hcontra
        exact hw hcontra.symm
      simp [hbeq]

lemma runsOf_subWordRuns (f : List Char → List Char)
    (hf : ∀ w, f w = w ∨ f w = [' '] ∨ f w = []) (s : List Char) :
    runsOf isWordChar (subWordRuns f s) =
      (runsOf isWordChar s).filter (fun w => f w == w) := by
  rw [subWordRuns_eq, runsOf_renderSegs_mapSegs f hf _ (parseRuns_segsOk _ s),
    runsOf_eq_runsOfSegs]

/-- `subWordRuns` is the identity when the transformer fixes every token. -/
lemma subWordRuns_id (f : List Char → List Char) (s : List Char)
    (hid : ∀ w ∈ runsOf isWordChar s, f w = w) : subWordRuns f s = s := by
  rw [subWordRuns_eq]
  have : mapSegs f (parseRuns isWordChar s) = parseRuns isWordChar s := by
    unfold mapSegs
    have hcongr : ∀ seg ∈ parseRuns isWordChar s,
        (fun seg => match seg with
          | Sum.inl w => Sum.inl (f w) | Sum.inr c => Sum.inr c) seg = id seg := by
      intro seg hseg
      cases seg with
      | inl w =>
        show Sum.inl (f w) = Sum.inl w
        rw [hid w (by rw [runsOf_eq_runsOfSegs, mem_runsOfSegs]; exact hseg)]
      | inr c => rfl
    rw [List.map_congr_left hcongr, List.map_id]
  rw [this, renderSegs_parseRuns]

/-- Characters of a `subWordRuns` image come from the original string or are
spaces. -/
lemma mem_subWordRuns (f : List Char → List Char)
    (hf : ∀ w, f w = w ∨ f w = [' '] ∨ f w = []) (s : List Char) (c : Char)
    (hc : c ∈ subWordRuns f s) : c ∈ s ∨ c = ' ' := by
  rw [subWordRuns_eq] at hc
  have key : ∀ m : List (List Char ⊕ Char),
      c ∈ renderSegs (mapSegs f m) → c ∈ renderSegs m ∨ c = ' ' := by
    intro m
    induction m with
    | nil => intro h; exact absurd h (by simp [mapSegs, renderSegs_nil])
    | cons seg m ih =>
      intro h
      cases seg with
      | inl w =>
        rw [show mapSegs f (Sum.inl w :: m) = Sum.inl (f w) :: mapSegs f m from rfl,
          renderSegs_cons_inl] at h
        rw [renderSegs_cons_inl]
        rcases List.mem_append.mp h with h | h
        · rcases hf w with hfw | hfw | hfw
          · rw [hfw] at h
            exact Or.inl (List.mem_append.mpr (Or.inl h))
          · rw [hfw] at h
            simp at h
            exact Or.inr h
          · rw [hfw] at h
            simp at h
        · rcases ih h with h | h
          · exact Or.inl (List.mem_append.mpr (Or.inr h))
          · exact Or.inr h
      | inr d =>
        rw [show mapSegs f (Sum.inr d :: m) = Sum.inr d :: mapSegs f m from rfl,
          renderSegs_cons_inr] at h
        rw [renderSegs_cons_inr]
        rcases List.mem_cons.mp h with h | h
        · exact Or.inl (List.mem_cons.mpr (Or.inl h))
        · rcases ih h with h2 | h2
          · exact Or.inl (List.mem_cons.mpr (Or.inr h2))
          · exact Or.inr h2
  have := key (parseRuns isWordChar s) hc
  rw [renderSegs_parseRuns] at this
  exact this

/-! ## Toolkit: character facts -/

lemma isWhitespace_cases (c : Char) (h : c.isWhitespace = true) :
    c = ' ' ∨ c = '\t' ∨ c = '\r' ∨ c = '\n' := by
  simp [Char.isWhitespace] at h
  tauto

lemma ws_not_wordChar (c : Char) (h : c.isWhitespace = true) :
    isWordChar c = false := by
  rcases isWhitespace_cases c h with rfl | rfl | rfl | rfl <;> decide

lemma wordChar_not_ws (c : Char) (h : isWordChar c = true) :
    c.isWhitespace = false := by
  cases hw : c.isWhitespace with
  | false => rfl
  | true => rw [ws_not_wordChar c hw] at h; exact absurd h (by simp)

lemma toLower_toLower (c : Char) : c.toLower.toLower = c.toLower := by
  by_cases h : c.toNat ≥ 65 ∧ c.toNat ≤ 90
  · have h1 : c.toLower = Char.ofNat (c.toNat + 32) := by
      simp only [Char.toLower]
      rw [if_pos h]
    have hvalid : Nat.isValidChar (c.toNat + 32) := Or.inl (by omega)
    have hval : (Char.ofNat (c.toNat + 32)).toNat = c.toNat + 32 := by
      rw [Char.ofNat, dif_pos hvalid]
      rfl
    rw [h1]
    simp only [Char.toLower]
    rw [if_neg (by rw [hval]; omega)]
  · have h1 : c.toLower = c := by
      simp only [Char.toLower]
      rw [if_neg h]
    rw [h1, h1]

/-! ## Toolkit: `squeezeGo` -/

lemma squeezeGo_nil (b : Bool) : squeezeGo b [] = [] := rfl

lemma squeezeGo_cons_ws_true (c : Char) (t : List Char) (h : c.isWhitespace = true) :
    squeezeGo true (c :: t) = squeezeGo true t := by
  simp [squeezeGo, h]

lemma squeezeGo_cons_ws_false (c : Char) (t : List Char) (h : c.isWhitespace = true) :
    squeezeGo false (c :: t) = ' ' :: squeezeGo true t := by
  simp [squeezeGo, h]

lemma squeezeGo_cons_nonws (b : Bool) (c : Char) (t : List Char)
    (h : c.isWhitespace = false) :
    squeezeGo b (c :: t) = c :: squeezeGo false t := by
  simp [squeezeGo, h]

/-- A non-whitespace prefix passes through `squeezeGo` untouched. -/
lemma squeezeGo_append_nonws (w : List Char) (hw : ∀ c ∈ w, c.isWhitespace = false)
    (hne : w ≠ []) (b : Bool) (r : List Char) :
    squeezeGo b (w ++ r) = w ++ squeezeGo false r := by
  induction w generalizing b with
  | nil => exact absurd rfl hne
  | cons c w2 ih =>
    rw [List.cons_append, squeezeGo_cons_nonws b c _ (hw c (by simp))]
    cases hw2 : decide (w2 = []) with
    | true =>
      have : w2 = [] := of_decide_eq_true hw2
      subst this
      simp
    | false =>
      have : w2 ≠ [] := of_decide_eq_false hw2
      rw [ih (fun d hd => hw d (List.mem_cons_of_mem _ hd)) this false,
        List.cons_append]

lemma mem_squeezeGo (u : List Char) (b : Bool) (c : Char)
    (hc : c ∈ squeezeGo b u) : c ∈ u ∨ c = ' ' := by
  induction u generalizing b with
  | nil => exact absurd hc (by simp [squeezeGo_nil])
  | cons d t ih =>
    cases hd : d.isWhitespace with
    | true =>
      cases b with
      | true =>
        rw [squeezeGo_cons_ws_true d t hd] at hc
        rcases ih true hc with h | h
        · exact Or.inl (List.mem_cons_of_mem _ h)
        · exact Or.inr h
      | false =>
        rw [squeezeGo_cons_ws_false d t hd] at hc
        rcases List.mem_cons.mp hc with h | h
        · exact Or.inr h
        · rcases ih true h with h2 | h2
          · exact Or.inl (List.mem_cons_of_mem _ h2)
          · exact Or.inr h2
    | false =>
      rw [squeezeGo_cons_nonws b d t hd] at hc
      rcases List.mem_cons.mp hc with h | h
      · exact Or.inl (List.mem_cons.mpr (Or.inl h))
      · rcases ih false h with h2 | h2
        · exact Or.inl (List.mem_cons_of_mem _ h2)
        · exact Or.inr h2

/-- Every whitespace character in a `squeezeGo` image is a plain space. -/
lemma squeezeGo_ws_space (u : List Char) (b : Bool) (c : Char)
    (hc : c ∈ squeezeGo b u) (hws : c.isWhitespace = true) : c = ' ' := by
  induction u generalizing b with
  | nil => exact absurd hc (by simp [squeezeGo_nil])
  | cons d t ih =>
    cases hd : d.isWhitespace with
    | true =>
      cases b with
      | true =>
        rw [squeezeGo_cons_ws_true d t hd] at hc
        exact ih true hc
      | false =>
        rw [squeezeGo_cons_ws_false d t hd] at hc
        rcases List.mem_cons.mp hc with h | h
        · exact h
        · exact ih true h
    | false =>
      rw [squeezeGo_cons_nonws b d t hd] at hc
      rcases List.mem_cons.mp hc with h | h
      · rw [h] at hws; rw [hws] at hd; exact absurd hd (by simp)
      · exact ih false h

/-- With the flag set, `squeezeGo` starts with a non-whitespace character
(when nonempty). -/
lemma squeezeGo_true_head (u : List Char) :
    squeezeGo true u = [] ∨
      ∃ d r, squeezeGo true u = d :: r ∧ d.isWhitespace = false := by
  induction u with
  | nil => exact Or.inl rfl
  | cons c t ih =>
    cases hc : c.isWhitespace with
    | true => rw [squeezeGo_cons_ws_true c t hc]; exact ih
    | false =>
      rw [squeezeGo_cons_nonws true c t hc]
      exact Or.inr ⟨c, squeezeGo false t, rfl, hc⟩

/-- No two adjacent whitespace characters in a `squeezeGo` image. -/
lemma squeezeGo_noAdjWs (u : List Char) (b : Bool) :
    List.Chain' (fun a d => ¬(a.isWhitespace = true ∧ d.isWhitespace = true))
      (squeezeGo b u) := by
  induction u generalizing b with
  | nil => simp [squeezeGo_nil]
  | cons c t ih =>
    cases hc : c.isWhitespace with
    | true =>
      cases b with
      | true => rw [squeezeGo_cons_ws_true c t hc]; exact ih true
      | false =>
        rw [squeezeGo_cons_ws_false c t hc]
        rw [List.chain'_cons']
        refine ⟨?_, ih true⟩
        intro y hy
        rcases squeezeGo_true_head t with h | ⟨d, r, hdr, hd⟩
        · rw [h] at hy; simp at hy
        · rw [hdr] at hy
          simp at hy
          subst hy
          intro hcontra
          rw [hd] at hcontra
          exact absurd hcontra.2 (by simp)
    | false =>
      rw [squeezeGo_cons_nonws b c t hc]
      rw [List.chain'_cons']
      refine ⟨?_, ih false⟩
      intro y _
      intro hcontra
      rw [hc] at hcontra
      exact absurd hcontra.1 (by simp)

/-- `squeezeGo` is the identity on strings whose whitespace is exactly
single spaces. -/
lemma squeezeGo_id (u : List Char)
    (hsp : ∀ c ∈ u, c.isWhitespace = true → c = ' ')
    (hadj : List.Chain' (fun a d => ¬(a.isWhitespace = true ∧ d.isWhitespace = true)) u) :
    squeezeGo false u = u ∧
      ((∀ d r, u = d :: r → d.isWhitespace = false) → squeezeGo true u = u) := by
  induction u with
  | nil => exact ⟨rfl, fun _ => rfl⟩
  | cons c t ih =>
    have hsp2 : ∀ c ∈ t, c.isWhitespace = true → c = ' ' :=
      fun d hd => hsp d (List.mem_cons_of_mem _ hd)
    have hadj2 : List.Chain'
        (fun a d => ¬(a.isWhitespace = true ∧ d.isWhitespace = true)) t :=
      (List.chain'_cons'.mp hadj).2
    have ih2 := ih hsp2 hadj2
    cases hc : c.isWhitespace with
    | true =>
      have hcsp : c = ' ' := hsp c (by simp) hc
      have hthead : ∀ d r, t = d :: r → d.isWhitespace = false := by
        intro d r hdr
        have := (List.chain'_cons'.mp hadj).1 d (by rw [hdr]; rfl)
        cases hdws : d.isWhitespace with
        | false => rfl
        | true => exact absurd ⟨hc, hdws⟩ this
      constructor
      · rw [squeezeGo_cons_ws_false c t hc, ih2.2 hthead, hcsp]
      · intro hhead
        exact absurd (hhead c t rfl) (by rw [hc]; simp)
    | false =>
      constructor
      · rw [squeezeGo_cons_nonws false c t hc, ih2.1]
      · intro _
        rw [squeezeGo_cons_nonws true c t hc, ih2.1]

/-! ## Toolkit: tokens through `squeezeGo`, whitespace appendices, `pyStrip` -/

lemma runsOf_all_neg (p : Char → Bool) (y : List Char)
    (h : ∀ c ∈ y, p c = false) : runsOf p y = [] := by
  induction y with
  | nil => rfl
  | cons c t ih =>
    rw [runsOf_cons_neg p c t (h c (by simp))]
    exact ih (fun d hd => h d (List.mem_cons_of_mem _ hd))

lemma head_dropWhile (p : Char → Bool) (t : List Char) (c : Char) (r : List Char)
    (h : t.dropWhile p = c :: r) : p c = false := by
  induction t with
  | nil => simp at h
  | cons d t2 ih =>
    rw [List.dropWhile_cons] at h
    by_cases hd : p d = true
    · rw [if_pos hd] at h
      exact ih h
    · rw [if_neg hd] at h
      rcases List.cons.inj h with ⟨rfl, rfl⟩
      simpa using hd

lemma dropWhile_shape (p : Char → Bool) (t : List Char) :
    t.dropWhile p = [] ∨ ∃ d r, t.dropWhile p = d :: r ∧ p d = false := by
  cases h : t.dropWhile p with
  | nil => exact Or.inl rfl
  | cons d r => exact Or.inr ⟨d, r, rfl, head_dropWhile p t d r h⟩

/-- Appending a trailing all-whitespace list does not change the word
tokens. -/
lemma runsOf_append_allws (n : ℕ) : ∀ x : List Char, x.length ≤ n →
    ∀ y : List Char, (∀ c ∈ y, c.isWhitespace = true) →
    runsOf isWordChar (x ++ y) = runsOf isWordChar x := by
  induction n with
  | zero =>
    intro x hx y hy
    have hx0 : x = [] := List.length_eq_zero.mp (Nat.le_zero.mp hx)
    subst hx0
    rw [List.nil_append]
    exact runsOf_all_neg _ y (fun c hc => ws_not_wordChar c (hy c hc))
  | succ n ih =>
    intro x hx y hy
    cases x with
    | nil =>
      rw [List.nil_append]
      exact runsOf_all_neg _ y (fun c hc => ws_not_wordChar c (hy c hc))
    | cons c t =>
      cases hc : isWordChar c with
      | false =>
        rw [List.cons_append, runsOf_cons_neg _ _ _ hc, runsOf_cons_neg _ _ _ hc]
        exact ih t (by simpa using Nat.le_of_succ_le_succ (by simpa using hx)) y hy
      | true =>
        have hsplit : c :: t =
            (c :: t.takeWhile isWordChar) ++ t.dropWhile isWordChar := by
          rw [List.cons_append, List.takeWhile_append_dropWhile]
        have hallw : ∀ d ∈ c :: t.takeWhile isWordChar, isWordChar d = true := by
          intro d hd
          rcases List.mem_cons.mp hd with rfl | hd
          · exact hc
          · exact List.mem_takeWhile_imp hd
        have hlen : (t.dropWhile isWordChar).length ≤ n := by
          have h1 := (List.dropWhile_sublist (l := t) isWordChar).length_le
          have h2 : t.length ≤ n := by simpa using Nat.le_of_succ_le_succ (by simpa using hx)
          omega
        have hmemdw : ∀ d ∈ t.dropWhile isWordChar, d ∈ t :=
          fun d hd => (List.dropWhile_sublist isWordChar).mem hd
        have hheadA : t.dropWhile isWordChar ++ y = [] ∨
            ∃ d r, t.dropWhile isWordChar ++ y = d :: r ∧ isWordChar d = false := by
          rcases dropWhile_shape isWordChar t with h | ⟨d, r, hdr, hd⟩
          · rw [h, List.nil_append]
            cases y with
            | nil => exact Or.inl rfl
            | cons e y2 =>
              exact Or.inr ⟨e, y2, rfl, ws_not_wordChar e (hy e (by simp))⟩
          · rw [hdr, List.cons_append]
            exact Or.inr ⟨d, r ++ y, rfl, hd⟩
        have hheadB := dropWhile_shape isWordChar t
        calc runsOf isWordChar (c :: t ++ y)
            = runsOf isWordChar ((c :: t.takeWhile isWordChar) ++
                (t.dropWhile isWordChar ++ y)) := by
              rw [← List.append_assoc, ← hsplit]
          _ = (c :: t.takeWhile isWordChar) ::
                runsOf isWordChar (t.dropWhile isWordChar ++ y) :=
              runsOf_append_run _ _ _ (by simp) hallw hheadA
          _ = (c :: t.takeWhile isWordChar) ::
                runsOf isWordChar (t.dropWhile isWordChar) := by
              rw [ih _ hlen y hy]
          _ = runsOf isWordChar ((c :: t.takeWhile isWordChar) ++
                t.dropWhile isWordChar) :=
              (runsOf_append_run _ _ _ (by simp) hallw hheadB).symm
          _ = runsOf isWordChar (c :: t) := by rw [← hsplit]

/-- `squeezeGo` does not change the word tokens of a word/whitespace
string. -/
lemma runsOf_squeezeGo (n : ℕ) : ∀ u : List Char, u.length ≤ n →
    (∀ c ∈ u, isWordChar c = true ∨ c.isWhitespace = true) → ∀ b : Bool,
    runsOf isWordChar (squeezeGo b u) = runsOf isWordChar u := by
  induction n with
  | zero =>
    intro u hu _ b
    have hu0 : u = [] := List.length_eq_zero.mp (Nat.le_zero.mp hu)
    subst hu0
    rw [squeezeGo_nil]
  | succ n ih =>
    intro u hlen hu b
    cases u with
    | nil => rw [squeezeGo_nil]
    | cons c t =>
      have hlent : t.length ≤ n := by simpa using Nat.le_of_succ_le_succ (by simpa using hlen)
      have hut : ∀ d ∈ t, isWordChar d = true ∨ d.isWhitespace = true :=
        fun d hd => hu d (List.mem_cons_of_mem _ hd)
      cases hcws : c.isWhitespace with
      | true =>
        have hcw : isWordChar c = false := ws_not_wordChar c hcws
        cases b with
        | true =>
          rw [squeezeGo_cons_ws_true c t hcws, runsOf_cons_neg _ _ _ hcw]
          exact ih t hlent hut true
        | false =>
          rw [squeezeGo_cons_ws_false c t hcws,
            runsOf_cons_neg _ _ _ space_not_wordChar]
          rw [runsOf_cons_neg _ _ _ hcw]
          exact ih t hlent hut true
      | false =>
        have hcw : isWordChar c = true := by
          rcases hu c (by simp) with h | h
          · exact h
          · rw [h] at hcws; exact absurd hcws (by simp)
        have hsplit : c :: t =
            (c :: t.takeWhile isWordChar) ++ t.dropWhile isWordChar := by
          rw [List.cons_append, List.takeWhile_append_dropWhile]
        have hallw : ∀ d ∈ c :: t.takeWhile isWordChar, isWordChar d = true := by
          intro d hd
          rcases List.mem_cons.mp hd with rfl | hd
          · exact hcw
          · exact List.mem_takeWhile_imp hd
        have hallnonws : ∀ d ∈ c :: t.takeWhile isWordChar, d.isWhitespace = false :=
          fun d hd => wordChar_not_ws d (hallw d hd)
        have hlendw : (t.dropWhile isWordChar).length ≤ n := by
          have h1 := (List.dropWhile_sublist (l := t) isWordChar).length_le
          omega
        have hmemdw : ∀ d ∈ t.dropWhile isWordChar,
            isWordChar d = true ∨ d.isWhitespace = true :=
          fun d hd => hut d ((List.dropWhile_sublist isWordChar).mem hd)
        have hheadB := dropWhile_shape isWordChar t
        have hheadSq : squeezeGo false (t.dropWhile isWordChar) = [] ∨
            ∃ d r, squeezeGo false (t.dropWhile isWordChar) = d :: r ∧
              isWordChar d = false := by
          rcases hheadB with h | ⟨d, r, hdr, hd⟩
          · rw [h, squeezeGo_nil]; exact Or.inl rfl
          · rw [hdr]
            cases hdws : d.isWhitespace with
            | true =>
              rw [squeezeGo_cons_ws_false d r hdws]
              exact Or.inr ⟨' ', squeezeGo true r, rfl, space_not_wordChar⟩
            | false =>
              rw [squeezeGo_cons_nonws false d r hdws]
              exact Or.inr ⟨d, squeezeGo false r, rfl, hd⟩
        calc runsOf isWordChar (squeezeGo b (c :: t))
            = runsOf isWordChar ((c :: t.takeWhile isWordChar) ++
                squeezeGo false (t.dropWhile isWordChar)) := by
              conv_lhs => rw [hsplit]
              rw [squeezeGo_append_nonws _ hallnonws (by simp) b]
          _ = (c :: t.takeWhile isWordChar) ::
                runsOf isWordChar (squeezeGo false (t.dropWhile isWordChar)) :=
              runsOf_append_run _ _ _ (by simp) hallw hheadSq
          _ = (c :: t.takeWhile isWordChar) ::
                runsOf isWordChar (t.dropWhile isWordChar) := by
              rw [ih _ hlendw hmemdw false]
          _ = runsOf isWordChar ((c :: t.takeWhile isWordChar) ++
                t.dropWhile isWordChar) :=
              (runsOf_append_run _ _ _ (by simp) hallw hheadB).symm
          _ = runsOf isWordChar (c :: t) := by rw [← hsplit]

lemma dropWhile_idem (p : Char → Bool) (t : List Char) :
    (t.dropWhile p).dropWhile p = t.dropWhile p := by
  induction t with
  | nil => rfl
  | cons c t2 ih =>
    rw [List.dropWhile_cons]
    by_cases hc : p c = true
    · rw [if_pos hc]; exact ih
    · rw [if_neg hc, List.dropWhile_cons, if_neg hc]

/-- Decomposition of `dropWhile` + right-strip: the stripped string plus an
all-whitespace tail. -/
lemma pyStrip_decomp (s : List Char) :
    ∃ z, s.dropWhile Char.isWhitespace = pyStrip s ++ z ∧
      ∀ c ∈ z, c.isWhitespace = true := by
  refine ⟨(((s.dropWhile Char.isWhitespace).reverse).takeWhile Char.isWhitespace).reverse,
    ?_, ?_⟩
  · conv_lhs => rw [show s.dropWhile Char.isWhitespace =
      ((s.dropWhile Char.isWhitespace).reverse).reverse by rw [List.reverse_reverse]]
    conv_lhs => rw [← List.takeWhile_append_dropWhile Char.isWhitespace
      ((s.dropWhile Char.isWhitespace).reverse)]
    rw [List.reverse_append]
    rfl
  · intro c hc
    rw [List.mem_reverse] at hc
    exact List.mem_takeWhile_imp hc

lemma full_strip_decomp (s : List Char) :
    ∃ y z, s = y ++ (pyStrip s ++ z) ∧ (∀ c ∈ y, c.isWhitespace = true) ∧
      ∀ c ∈ z, c.isWhitespace = true := by
  rcases pyStrip_decomp s with ⟨z, hz, hzw⟩
  refine ⟨s.takeWhile Char.isWhitespace, z, ?_, ?_, hzw⟩
  · rw [← hz, List.takeWhile_append_dropWhile]
  · intro c hc
    exact List.mem_takeWhile_imp hc

lemma mem_pyStrip (s : List Char) (c : Char) (hc : c ∈ pyStrip s) : c ∈ s := by
  rcases full_strip_decomp s with ⟨y, z, hdecomp, _, _⟩
  rw [hdecomp]
  simp [hc]

lemma runsOf_ws_app (y x : List Char) (hy : ∀ c ∈ y, c.isWhitespace = true) :
    runsOf isWordChar (y ++ x) = runsOf isWordChar x := by
  induction y with
  | nil => rw [List.nil_append]
  | cons c y2 ih =>
    rw [List.cons_append, runsOf_cons_neg _ _ _ (ws_not_wordChar c (hy c (by simp)))]
    exact ih (fun d hd => hy d (List.mem_cons_of_mem _ hd))

lemma runsOf_pyStrip (s : List Char) :
    runsOf isWordChar (pyStrip s) = runsOf isWordChar s := by
  rcases full_strip_decomp s with ⟨y, z, hdecomp, hyw, hzw⟩
  conv_rhs => rw [hdecomp]
  rw [runsOf_ws_app y _ hyw,
    runsOf_append_allws (pyStrip s).length (pyStrip s) (le_refl _) z hzw]

lemma chain'_pyStrip {R : Char → Char → Prop} (s : List Char)
    (h : List.Chain' R s) : List.Chain' R (pyStrip s) := by
  rcases full_strip_decomp s with ⟨y, z, hdecomp, _, _⟩
  rw [hdecomp] at h
  exact ((List.chain'_append.mp ((List.chain'_append.mp h).2.1)).1)

lemma pyStrip_idem (s : List Char) : pyStrip (pyStrip s) = pyStrip s := by
  have hleft : (pyStrip s).dropWhile Char.isWhitespace = pyStrip s := by
    cases hP : pyStrip s with
    | nil => rfl
    | cons d P2 =>
      rcases pyStrip_decomp s with ⟨z, hz, _⟩
      rw [hP] at hz
      have hd : d.isWhitespace = false := by
        apply head_dropWhile Char.isWhitespace s d (P2 ++ z)
        rw [hz, List.cons_append]
      rw [List.dropWhile_cons, if_neg (by rw [hd]; simp)]
  have hPrev : (pyStrip s).reverse =
      (s.dropWhile Char.isWhitespace).reverse.dropWhile Char.isWhitespace := by
    show (((s.dropWhile Char.isWhitespace).reverse.dropWhile
      Char.isWhitespace).reverse).reverse = _
    rw [List.reverse_reverse]
  have hright : (pyStrip s).reverse.dropWhile Char.isWhitespace =
      (pyStrip s).reverse := by
    rw [hPrev, dropWhile_idem]
  show ((((pyStrip s).dropWhile Char.isWhitespace).reverse).dropWhile
    Char.isWhitespace).reverse = _
  rw [hleft, hright, List.reverse_reverse]

/-! ## Stage lemmas for `normalize_company_name` -/

lemma replaceCharStr_nil (a : Char) (r : List Char) : replaceCharStr a r [] = [] := rfl

lemma replaceCharStr_cons (a : Char) (r : List Char) (c : Char) (t : List Char) :
    replaceCharStr a r (c :: t) = (if c = a then r else [c]) ++ replaceCharStr a r t := rfl

lemma mem_replaceCharStr (a : Char) (r : List Char) (y : List Char) (c : Char)
    (hc : c ∈ replaceCharStr a r y) : (c ∈ y ∧ c ≠ a) ∨ c ∈ r := by
  induction y with
  | nil => exact absurd hc (by simp [replaceCharStr_nil])
  | cons d t ih =>
    rw [replaceCharStr_cons] at hc
    rcases List.mem_append.mp hc with h | h
    · by_cases hd : d = a
      · rw [if_pos hd] at h
        exact Or.inr h
      · rw [if_neg hd] at h
        simp at h
        subst h
        exact Or.inl ⟨by simp, hd⟩
    · rcases ih h with ⟨h1, h2⟩ | h1
      · exact Or.inl ⟨List.mem_cons_of_mem _ h1, h2⟩
      · exact Or.inr h1

lemma replaceCharStr_id (a : Char) (r : List Char) (y : List Char)
    (hy : ∀ c ∈ y, c ≠ a) : replaceCharStr a r y = y := by
  induction y with
  | nil => rfl
  | cons d t ih =>
    rw [replaceCharStr_cons, if_neg (hy d (by simp)),
      ih (fun c hc => hy c (List.mem_cons_of_mem _ hc))]
    rfl

lemma replaceCharStr_pres (a : Char) (r : List Char) (y : List Char)
    (P : Char → Prop) (hy : ∀ c ∈ y, P c) (hr : ∀ c ∈ r, P c) :
    ∀ c ∈ replaceCharStr a r y, P c := by
  intro c hc
  rcases mem_replaceCharStr a r y c hc with ⟨h1, _⟩ | h1
  · exact hy c h1
  · exact hr c h1

lemma symbolSubst_lower (y : List Char) (hy : ∀ c ∈ y, c.toLower = c) :
    ∀ c ∈ symbolSubst y, c.toLower = c := by
  intro c hc
  unfold symbolSubst at hc
  rcases mem_replaceCharStr _ _ _ c hc with ⟨hc1, _⟩ | hr
  · rcases mem_replaceCharStr _ _ _ c hc1 with ⟨hc2, _⟩ | hr
    · rcases mem_replaceCharStr _ _ _ c hc2 with ⟨hc3, _⟩ | hr
      · rcases mem_replaceCharStr _ _ _ c hc3 with ⟨hc4, _⟩ | hr
        · rcases mem_replaceCharStr _ _ _ c hc4 with ⟨hc5, _⟩ | hr
          · rcases mem_replaceCharStr _ _ _ c hc5 with ⟨hc6, _⟩ | hr
            · exact hy c hc6
            · exact (by decide : ∀ d ∈ (" and ".data), d.toLower = d) c hr
          · exact (by decide : ∀ d ∈ (" at ".data), d.toLower = d) c hr
        · exact (by decide : ∀ d ∈ (" plus ".data), d.toLower = d) c hr
      · exact (by decide : ∀ d ∈ ([' '] : List Char), d.toLower = d) c hr
    · exact (by decide : ∀ d ∈ ([' '] : List Char), d.toLower = d) c hr
  · exact (by decide : ∀ d ∈ ([' '] : List Char), d.toLower = d) c hr

lemma symbolSubst_no_underscore (y : List Char) :
    ∀ c ∈ symbolSubst y, c ≠ '_' := by
  intro c hc
  unfold symbolSubst at hc
  rcases mem_replaceCharStr _ _ _ c hc with ⟨_, h2⟩ | h1
  · exact h2
  · simp at h1
    rw [h1]
    decide

lemma pyLower_lower (s : List Char) : ∀ c ∈ pyLower s, c.toLower = c := by
  intro c hc
  rcases List.mem_map.mp hc with ⟨d, _, rfl⟩
  exact toLower_toLower d

lemma nonWordToSpace_props (x : List Char)
    (hlow : ∀ c ∈ x, c.toLower = c) (hund : ∀ c ∈ x, c ≠ '_') :
    ∀ c ∈ nonWordToSpace x,
      (isWordChar c = true ∧ c.toLower = c ∧ c ≠ '_') ∨ c.isWhitespace = true := by
  intro c hc
  rcases List.mem_map.mp hc with ⟨d, hd, rfl⟩
  by_cases hcond : (isWordChar d || d.isWhitespace) = true
  · rw [if_pos hcond]
    rcases Bool.or_eq_true_iff.mp hcond with h | h
    · exact Or.inl ⟨h, hlow d hd, hund d hd⟩
    · exact Or.inr h
  · rw [if_neg hcond]
    exact Or.inr (by decide)

lemma suffix_hf (alts : List String) : ∀ w,
    (if matchesAlts alts w then [' '] else w) = w ∨
    (if matchesAlts alts w then [' '] else w) = [' '] ∨
    (if matchesAlts alts w then [' '] else w) = [] := by
  intro w
  by_cases hm : matchesAlts alts w = true
  · rw [if_pos hm]; exact Or.inr (Or.inl rfl)
  · rw [if_neg hm]; exact Or.inl rfl

lemma mem_suffixFold (pats : List (List String)) (x : List Char) (c : Char)
    (hc : c ∈ List.foldl (fun acc alts => removeSuffixPat alts acc) x pats) :
    c ∈ x ∨ c = ' ' := by
  induction pats generalizing x with
  | nil => exact Or.inl hc
  | cons p ps ih =>
    rcases ih (removeSuffixPat p x) hc with h | h
    · exact mem_subWordRuns _ (suffix_hf p) x c h
    · exact Or.inr h

lemma digits_hf : ∀ w : List Char,
    (if w.all Char.isDigit then [] else w) = w ∨
    (if w.all Char.isDigit then [] else w) = [' '] ∨
    (if w.all Char.isDigit then [] else w) = [] := by
  intro w
  by_cases hm : w.all Char.isDigit = true
  · rw [if_pos hm]; exact Or.inr (Or.inr rfl)
  · rw [if_neg hm]; exact Or.inl rfl

/-- Tokens surviving the suffix-removal fold match none of the applied
patterns. -/
lemma suffixFold_tokens (pats : List (List String)) (x : List Char)
    (w : List Char)
    (hw : w ∈ runsOf isWordChar (List.foldl
      (fun acc alts => removeSuffixPat alts acc) x pats)) :
    w ∈ runsOf isWordChar x ∧ ∀ alts ∈ pats, matchesAlts alts w = false := by
  induction pats generalizing x with
  | nil => exact ⟨hw, by simp⟩
  | cons p ps ih =>
    obtain ⟨hmem, hps⟩ := ih (removeSuffixPat p x) hw
    have hx : runsOf isWordChar (removeSuffixPat p x) =
        (runsOf isWordChar x).filter
          (fun w => (if matchesAlts p w then [' '] else w) == w) := by
      unfold removeSuffixPat
      exact runsOf_subWordRuns _ (suffix_hf p) x
    rw [hx] at hmem
    obtain ⟨hmemx, hcond⟩ := List.mem_filter.mp hmem
    have hmatch : matchesAlts p w = false := by
      cases hm : matchesAlts p w with
      | false => rfl
      | true =>
        rw [hm] at hcond
        simp at hcond
        have hprops := runsOf_props isWordChar x w hmemx
        have : isWordChar ' ' = true := by
          apply hprops.2
          rw [← hcond]
          simp
        exact absurd this (by decide)
    refine ⟨hmemx, ?_⟩
    intro alts halts
    rcases List.mem_cons.mp halts with rfl | h
    · exact hmatch
    · exact hps alts h


/-! ## Interface equations and identity lemmas for the normalizer stages

These are proved while the stage definitions are still reducible; the heavy
normalization proofs below then treat the stages as opaque (symbolic
reduction of the composed stages is prohibitively expensive). -/

lemma removeSuffixes_eq_foldl (x : List Char) :
    removeSuffixes x =
      List.foldl (fun acc alts => removeSuffixPat alts acc) x COMPANY_SUFFIXES := rfl

lemma squeezeWs_eq (u : List Char) : squeezeWs u = squeezeGo false u := rfl

lemma normalizeCore_eq (s : List Char) :
    normalizeCore s = pyStrip (squeezeWs (removeNumberTokens (removeSuffixes
      (nonWordToSpace (symbolSubst (pyStrip (pyLower s))))))) := rfl

lemma normalize_company_name_none : normalize_company_name none = "" := rfl

lemma normalize_company_name_some (s : String) :
    normalize_company_name (some s) =
      if s = "" then "" else ⟨normalizeCore s.data⟩ := rfl

lemma runsOf_nil (p : Char → Bool) : runsOf p [] = [] := rfl

lemma mem_removeSuffixes (x : List Char) (c : Char) (hc : c ∈ removeSuffixes x) :
    c ∈ x ∨ c = ' ' :=
  mem_suffixFold COMPANY_SUFFIXES x c hc

lemma removeSuffixes_tokens (x : List Char) (w : List Char)
    (hw : w ∈ runsOf isWordChar (removeSuffixes x)) :
    w ∈ runsOf isWordChar x ∧
      ∀ alts ∈ COMPANY_SUFFIXES, matchesAlts alts w = false :=
  suffixFold_tokens COMPANY_SUFFIXES x w hw

lemma mem_removeNumberTokens (x : List Char) (c : Char)
    (hc : c ∈ removeNumberTokens x) : c ∈ x ∨ c = ' ' :=
  mem_subWordRuns _ digits_hf x c hc

lemma runsOf_removeNumberTokens (x : List Char) :
    runsOf isWordChar (removeNumberTokens x) =
      (runsOf isWordChar x).filter
        (fun w => (if w.all Char.isDigit then [] else w) == w) :=
  runsOf_subWordRuns _ digits_hf x

lemma mem_squeezeWs (u : List Char) (c : Char) (hc : c ∈ squeezeWs u) :
    c ∈ u ∨ c = ' ' :=
  mem_squeezeGo u false c hc

lemma squeezeWs_ws_space (u : List Char) (c : Char) (hc : c ∈ squeezeWs u)
    (hws : c.isWhitespace = true) : c = ' ' :=
  squeezeGo_ws_space u false c hc hws

lemma squeezeWs_noAdjWs (u : List Char) :
    List.Chain' (fun a d => ¬(a.isWhitespace = true ∧ d.isWhitespace = true))
      (squeezeWs u) :=
  squeezeGo_noAdjWs u false

lemma runsOf_squeezeWs (u : List Char)
    (hu : ∀ c ∈ u, isWordChar c = true ∨ c.isWhitespace = true) :
    runsOf isWordChar (squeezeWs u) = runsOf isWordChar u := by
  rw [squeezeWs_eq]
  exact runsOf_squeezeGo u.length u (le_refl _) hu false

lemma pyLower_id (t : List Char) (h : ∀ c ∈ t, c.toLower = c) :
    pyLower t = t := by
  unfold pyLower
  have hfun : ∀ c ∈ t, Char.toLower c = id c := h
  rw [List.map_congr_left hfun, List.map_id]

lemma symbolSubst_id (t : List Char)
    (h : ∀ c ∈ t, c ∉ (['&', '@', '+', '/', '-', '_'] : List Char)) :
    symbolSubst t = t := by
  have hne : ∀ a ∈ (['&', '@', '+', '/', '-', '_'] : List Char),
      ∀ c ∈ t, c ≠ a := by
    intro a ha c hc hcontra
    exact h c hc (hcontra ▸ ha)
  unfold symbolSubst
  rw [replaceCharStr_id _ _ _ (hne '&' (by decide)),
    replaceCharStr_id _ _ _ (hne '@' (by decide)),
    replaceCharStr_id _ _ _ (hne '+' (by decide)),
    replaceCharStr_id _ _ _ (hne '/' (by decide)),
    replaceCharStr_id _ _ _ (hne '-' (by decide)),
    replaceCharStr_id _ _ _ (hne '_' (by decide))]

lemma nonWordToSpace_id (t : List Char)
    (h : ∀ c ∈ t, isWordChar c = true ∨ c.isWhitespace = true) :
    nonWordToSpace t = t := by
  unfold nonWordToSpace
  have hfun : ∀ c ∈ t,
      (if isWordChar c || c.isWhitespace then c else ' ') = id c := by
    intro c hc
    have hcond : (isWordChar c || c.isWhitespace) = true := by
      rcases h c hc with h1 | h1 <;> simp [h1]
    rw [if_pos hcond]
    rfl
  rw [List.map_congr_left hfun, List.map_id]

lemma foldl_fix {α β : Type} (g : α → β → α) (t : α)
    (pats : List β) (h : ∀ b ∈ pats, g t b = t) :
    List.foldl g t pats = t := by
  induction pats with
  | nil => rfl
  | cons p ps ih =>
    show List.foldl g (g t p) ps = t
    rw [h p (by simp)]
    exact ih (fun b hb => h b (List.mem_cons_of_mem _ hb))

lemma removeSuffixPat_id (alts : List String) (t : List Char)
    (h : ∀ w ∈ runsOf isWordChar t, matchesAlts alts w = false) :
    removeSuffixPat alts t = t := by
  unfold removeSuffixPat
  apply subWordRuns_id
  intro w hw
  rw [h w hw]
  simp

lemma removeSuffixes_id (t : List Char)
    (h : ∀ w ∈ runsOf isWordChar t,
      ∀ alts ∈ COMPANY_SUFFIXES, matchesAlts alts w = false) :
    removeSuffixes t = t := by
  rw [removeSuffixes_eq_foldl]
  apply foldl_fix
  intro alts halts
  exact removeSuffixPat_id alts t (fun w hw => h w hw alts halts)

lemma removeNumberTokens_id (t : List Char)
    (h : ∀ w ∈ runsOf isWordChar t, w.all Char.isDigit = false) :
    removeNumberTokens t = t := by
  unfold removeNumberTokens
  apply subWordRuns_id
  intro w hw
  rw [h w hw]
  simp

lemma squeezeWs_id (t : List Char)
    (hsp : ∀ c ∈ t, c.isWhitespace = true → c = ' ')
    (hadj : List.Chain'
      (fun a d => ¬(a.isWhitespace = true ∧ d.isWhitespace = true)) t) :
    squeezeWs t = t := by
  rw [squeezeWs_eq]
  exact (squeezeGo_id t hsp hadj).1

section NormalizeOpaque

attribute [local irreducible] pyLower pyStrip replaceCharStr symbolSubst
  nonWordToSpace parseRuns renderSegs subWordRuns runsOf matchesAlts
  removeSuffixPat removeSuffixes removeNumberTokens squeezeGo squeezeWs
  normalizeCore normalize_company_name

/-- The big fact bundle about `normalizeCore s`: character classes, spacing
shape, surviving tokens, and strip-fixedness. -/
lemma normalizeCore_facts (s : List Char) :
    (∀ c ∈ normalizeCore s, (isWordChar c = true ∧ c.toLower = c ∧ c ≠ '_') ∨ c = ' ') ∧
    List.Chain' (fun a d => ¬(a.isWhitespace = true ∧ d.isWhitespace = true))
      (normalizeCore s) ∧
    (∀ w ∈ runsOf isWordChar (normalizeCore s),
      (∀ alts ∈ COMPANY_SUFFIXES, matchesAlts alts w = false) ∧
        w.all Char.isDigit = false) ∧
    pyStrip (normalizeCore s) = normalizeCore s := by
  have hx : ∀ c ∈ symbolSubst (pyStrip (pyLower s)), c.toLower = c :=
    symbolSubst_lower _ (fun c hc => pyLower_lower s c (mem_pyStrip _ c hc))
  have hxu : ∀ c ∈ symbolSubst (pyStrip (pyLower s)), c ≠ '_' :=
    symbolSubst_no_underscore _
  have hA : ∀ c ∈ nonWordToSpace (symbolSubst (pyStrip (pyLower s))),
      (isWordChar c = true ∧ c.toLower = c ∧ c ≠ '_') ∨ c.isWhitespace = true :=
    nonWordToSpace_props _ hx hxu
  have hu1 : ∀ c ∈ removeSuffixes (nonWordToSpace (symbolSubst (pyStrip (pyLower s)))),
      (isWordChar c = true ∧ c.toLower = c ∧ c ≠ '_') ∨ c.isWhitespace = true := by
    intro c hc
    rcases mem_removeSuffixes _ c hc with h | h
    · exact hA c h
    · rw [h]; exact Or.inr (by decide)
  have hu2 : ∀ c ∈ removeNumberTokens (removeSuffixes (nonWordToSpace
      (symbolSubst (pyStrip (pyLower s))))),
      (isWordChar c = true ∧ c.toLower = c ∧ c ≠ '_') ∨ c.isWhitespace = true := by
    intro c hc
    rcases mem_removeNumberTokens _ c hc with h | h
    · exact hu1 c h
    · rw [h]; exact Or.inr (by decide)
  have hu2' : ∀ c ∈ removeNumberTokens (removeSuffixes (nonWordToSpace
      (symbolSubst (pyStrip (pyLower s))))),
      isWordChar c = true ∨ c.isWhitespace = true := by
    intro c hc
    rcases hu2 c hc with h | h
    · exact Or.inl h.1
    · exact Or.inr h
  refine ⟨?_, ?_, ?_, ?_⟩
  · intro c hc
    rw [normalizeCore_eq] at hc
    have hcv := mem_pyStrip _ c hc
    rcases mem_squeezeWs _ c hcv with h | h
    · rcases hu2 c h with h2 | h2
      · exact Or.inl h2
      · exact Or.inr (squeezeWs_ws_space _ c hcv h2)
    · exact Or.inr h
  · rw [normalizeCore_eq]
    exact chain'_pyStrip _ (squeezeWs_noAdjWs _)
  · intro w hw
    rw [normalizeCore_eq, runsOf_pyStrip, runsOf_squeezeWs _ hu2',
      runsOf_removeNumberTokens] at hw
    obtain ⟨hmem, hcond⟩ := List.mem_filter.mp hw
    have hwne : w ≠ [] := (runsOf_props isWordChar _ w hmem).1
    have hnotdig : w.all Char.isDigit = false := by
      cases hd : w.all Char.isDigit with
      | false => rfl
      | true =>
        rw [hd] at hcond
        simp at hcond
        exact absurd hcond hwne
    exact ⟨(removeSuffixes_tokens _ w hmem).2, hnotdig⟩
  · rw [normalizeCore_eq]
    exact pyStrip_idem _

/-- `normalizeCore` fixes its own output. -/
lemma normalizeCore_idem (s : List Char) :
    normalizeCore (normalizeCore s) = normalizeCore s := by
  obtain ⟨hchar, hchain, htok, hstrip⟩ := normalizeCore_facts s
  have h1 : pyLower (normalizeCore s) = normalizeCore s := by
    apply pyLower_id
    intro c hc
    rcases hchar c hc with h | h
    · exact h.2.1
    · rw [h]; decide
  have h3 : symbolSubst (normalizeCore s) = normalizeCore s := by
    apply symbolSubst_id
    intro c hc hmem
    rcases hchar c hc with h | h
    · simp at hmem
      rcases hmem with rfl | rfl | rfl | rfl | rfl | rfl
      · exact absurd h.1 (by decide)
      · exact absurd h.1 (by decide)
      · exact absurd h.1 (by decide)
      · exact absurd h.1 (by decide)
      · exact absurd h.1 (by decide)
      · exact h.2.2 rfl
    · rw [h] at hmem
      exact absurd hmem (by decide)
  have h4 : nonWordToSpace (normalizeCore s) = normalizeCore s := by
    apply nonWordToSpace_id
    intro c hc
    rcases hchar c hc with h | h
    · exact Or.inl h.1
    · rw [h]; exact Or.inr (by decide)
  have h5 : removeSuffixes (normalizeCore s) = normalizeCore s :=
    removeSuffixes_id _ (fun w hw alts halts => (htok w hw).1 alts halts)
  have h6 : removeNumberTokens (normalizeCore s) = normalizeCore s :=
    removeNumberTokens_id _ (fun w hw => (htok w hw).2)
  have h7 : squeezeWs (normalizeCore s) = normalizeCore s := by
    apply squeezeWs_id _ ?_ hchain
    intro c hc hws
    rcases hchar c hc with h | h
    · rw [wordChar_not_ws c h.1] at hws
      exact absurd hws (by simp)
    · exact h
  conv_lhs => rw [normalizeCore_eq (normalizeCore s)]
  rw [h1, hstrip, h3, h4, h5, h6, h7, hstrip]

end NormalizeOpaque

section NormalizeClaims

attribute [local irreducible] pyLower pyStrip replaceCharStr symbolSubst
  nonWordToSpace parseRuns renderSegs subWordRuns runsOf matchesAlts
  removeSuffixPat removeSuffixes removeNumberTokens squeezeGo squeezeWs
  normalizeCore normalize_company_name

/-! ## Claim C2 -/

/-- C2: `normalize_company_name` is idempotent — for every input (including
`None` and the empty string), normalizing the normalized output returns it
unchanged. -/
theorem C2_normalize_idempotent (name : Option String) :
    normalize_company_name (some (normalize_company_name name)) =
      normalize_company_name name := by
  cases name with
  | none =>
    rw [normalize_company_name_none, normalize_company_name_some, if_pos rfl]
  | some s =>
    rw [normalize_company_name_some s]
    by_cases hs : s = ""
    · rw [if_pos hs, normalize_company_name_some, if_pos rfl]
    · rw [if_neg hs, normalize_company_name_some]
      by_cases h0 : normalizeCore s.data = []
      · have hdata0 : (⟨normalizeCore s.data⟩ : String) = "" := by
          apply String.ext
          rw [show (⟨normalizeCore s.data⟩ : String).data = normalizeCore s.data
            from rfl, h0]
        rw [if_pos hdata0]
        exact hdata0.symm
      · rw [if_neg (show (⟨normalizeCore s.data⟩ : String) ≠ "" from by
          intro hcontra
          apply h0
          have := congrArg String.data hcontra
          simpa using this)]
        show (⟨normalizeCore (⟨normalizeCore s.data⟩ : String).data⟩ : String) = _
        rw [show (⟨normalizeCore s.data⟩ : String).data = normalizeCore s.data
          from rfl, normalizeCore_idem]

/-! ## Claim C3 (amended theorem) -/

/-- C3, amended: every word token of a normalized name fails every
`COMPANY_SUFFIXES` pattern.  For the undotted alternatives this says each
suffix token occurring as a whole word is removed; the dotted alternatives
(`s.a.`, `l.p.`, …) cannot occur in (or be removed from) the output because
the punctuation pass has already replaced every dot by a space — which is
why a name ending in `S.A.` keeps the residue `s a` (see the
counterexample). -/
theorem C3_no_suffix_token_survives (name : Option String) :
    ∀ w ∈ runsOf isWordChar (normalize_company_name name).data,
      ∀ alts ∈ COMPANY_SUFFIXES, matchesAlts alts w = false := by
  cases name with
  | none =>
    rw [normalize_company_name_none]
    intro w hw
    rw [show ("" : String).data = [] from rfl, runsOf_nil] at hw
    exact absurd hw (by simp)
  | some s =>
    rw [normalize_company_name_some]
    by_cases hs : s = ""
    · rw [if_pos hs]
      intro w hw
      rw [show ("" : String).data = [] from rfl, runsOf_nil] at hw
      exact absurd hw (by simp)
    · rw [if_neg hs]
      intro w hw
      rw [show (⟨normalizeCore s.data⟩ : String).data = normalizeCore s.data
        from rfl] at hw
      exact ((normalizeCore_facts s.data).2.2.1 w hw).1

end NormalizeClaims

/-- C3, counterexample.  The claim says the dotted suffixes `s.a.` and
`l.p.` are removed as whole words, leaving no residue.  But
`normalize_company_name` replaces every non-word symbol (including `.`)
with a space before the suffix regexes run, so `\bs\.a\.?\b` can never
match: normalizing `"Acme S.A."` yields `"acme s a"`, with the residue
tokens `s` and `a` still present, not `"acme"`. -/
theorem C3_counterexample :
    normalize_company_name (some "Acme S.A.") = "acme s a" ∧
      (['s'] ∈ runsOf isWordChar (normalize_company_name (some "Acme S.A.")).data ∧
        ['a'] ∈ runsOf isWordChar (normalize_company_name (some "Acme S.A.")).data) ∧
      normalize_company_name (some "Acme S.A.") ≠ "acme" := by
  refine ⟨by decide, ⟨by decide, by decide⟩, by decide⟩

/-- C3, witness: the amended theorem evaluated at `"Acme Inc."`, whose
normalization is `"acme"`; its sole token matches no suffix pattern. -/
theorem C3_witness :
    (['a', 'c', 'm', 'e'] ∈
      runsOf isWordChar (normalize_company_name (some "Acme Inc.")).data) ∧
    ∀ alts ∈ COMPANY_SUFFIXES, matchesAlts alts ['a', 'c', 'm', 'e'] = false :=
  ⟨by decide, C3_no_suffix_token_survives (some "Acme Inc.")
    ['a', 'c', 'm', 'e'] (by decide)⟩

/-! ## Lemmas about the Firestore writes and upload helpers -/

lemma update_brand_social_dry (fc : FirebaseClient) (brand_id : String)
    (ups : List (String × String)) :
    update_brand_social fc brand_id ups true = (true, []) := rfl

lemma update_brand_parent_info_dry (fc : FirebaseClient) (brand_id : String)
    (pc : Option String) (pid : Option String) :
    update_brand_parent_info fc brand_id pc pid true = (true, []) := rfl

lemma update_parent_subsidiaries_dry (fc : FirebaseClient) (pid : String)
    (subs : List String) :
    update_parent_subsidiaries fc pid subs true = (true, []) := rfl

/-- Closed form of `_upload_contact_info`: the queues are untouched, the
social write is attempted at most once, and `errors` grows by one exactly
when a real nonempty write fails. -/
lemma uploadContactInfo_spec (fc : FirebaseClient) (dry : Bool)
    (st : UploadState) (brand_id : String) (contact : Row) :
    uploadContactInfo fc dry st brand_id contact =
      { st with
        trace := st.trace ++
          (if socialUpdates contact = [] ∨ dry = true then []
            else [WriteOp.social brand_id (socialUpdates contact)])
        stats := { st.stats with errors := st.stats.errors +
          (if socialUpdates contact ≠ [] ∧ dry = false ∧
              fc.outcome (.social brand_id (socialUpdates contact)) = false
            then 1 else 0) } } := by
  unfold uploadContactInfo update_brand_social
  by_cases hup : socialUpdates contact = []
  · simp [hup]
  · cases dry with
    | true => simp [hup]
    | false =>
      cases hout : fc.outcome (.social brand_id (socialUpdates contact)) with
      | true => simp [hup, hout]
      | false => simp [hup, hout]

lemma uploadContactInfo_empty (fc : FirebaseClient) (dry : Bool)
    (st : UploadState) (brand_id : String) (contact : Row)
    (h : socialUpdates contact = []) :
    uploadContactInfo fc dry st brand_id contact = st := by
  unfold uploadContactInfo
  rw [if_pos h]

/-- The per-child loop of `_upload_subsidiary_info` in closed form. -/
lemma parentInfoFold_spec (fc : FirebaseClient) (dry : Bool)
    (parent_brand_id : String) (parent_name : String) :
    ∀ (matched : List (String × Brand × ℚ)) (st : UploadState),
    matched.foldl
      (fun acc sub =>
        let r2 := update_brand_parent_info fc sub.1 (some parent_name)
          (some parent_brand_id) dry
        { acc with
          trace := acc.trace ++ r2.2
          stats := if r2.1 then acc.stats
            else { acc.stats with errors := acc.stats.errors + 1 } })
      st =
    { st with
      trace := st.trace ++ (if dry = true then []
        else matched.map (fun sub =>
          WriteOp.parentInfo sub.1 (some parent_name) (some parent_brand_id)))
      stats := { st.stats with errors := st.stats.errors +
        (if dry = true then 0
          else matched.countP (fun sub => !fc.outcome
            (.parentInfo sub.1 (some parent_name) (some parent_brand_id)))) } } := by
  intro matched
  induction matched with
  | nil =>
    intro st
    cases dry <;> simp
  | cons m ms ih =>
    intro st
    rw [List.foldl_cons, ih]
    cases dry with
    | true =>
      rw [update_brand_parent_info_dry]
      simp
    | false =>
      have hr2 : update_brand_parent_info fc m.1 (some parent_name)
          (some parent_brand_id) false =
          (fc.outcome (.parentInfo m.1 (some parent_name) (some parent_brand_id)),
            [.parentInfo m.1 (some parent_name) (some parent_brand_id)]) := by
        unfold update_brand_parent_info
        rw [if_neg (show ¬(false = true) by simp),
          if_neg (show ¬((some parent_name : Option String) = none ∧
            (some parent_brand_id : Option String) = none) by simp)]
      rw [hr2]
      cases hout : fc.outcome
          (.parentInfo m.1 (some parent_name) (some parent_brand_id)) with
      | true =>
        simp [List.countP_cons, hout, List.append_assoc]
      | false =>
        simp [List.countP_cons, hout, List.append_assoc]
        omega

/-- Closed form of `_upload_subsidiary_info`: queues untouched; one
parent-subsidiaries write and one parent-info write per matched child are
attempted; `errors` counts exactly the failed child writes — a failed
parent-subsidiaries write is not counted. -/
lemma uploadSubsidiaryInfo_spec (fc : FirebaseClient) (dry : Bool)
    (st : UploadState) (parent_brand_id : String) (parent_name : String)
    (matched : List (String × Brand × ℚ)) :
    uploadSubsidiaryInfo fc dry st parent_brand_id parent_name matched =
      { st with
        trace := st.trace ++
          (if dry = true then []
            else [WriteOp.parentSubs parent_brand_id
              (matched.map (fun sub => sub.1))]) ++
          (if dry = true then []
            else matched.map (fun sub =>
              WriteOp.parentInfo sub.1 (some parent_name) (some parent_brand_id)))
        stats := { st.stats with errors := st.stats.errors +
          (if dry = true then 0
            else matched.countP (fun sub => !fc.outcome
              (.parentInfo sub.1 (some parent_name) (some parent_brand_id)))) } } := by
  unfold uploadSubsidiaryInfo
  rw [parentInfoFold_spec]
  cases dry with
  | true =>
    rw [update_parent_subsidiaries_dry]
    simp
  | false =>
    have hr : update_parent_subsidiaries fc parent_brand_id
        (matched.map (fun sub => sub.1)) false =
        (fc.outcome (.parentSubs parent_brand_id (matched.map (fun sub => sub.1))),
          [.parentSubs parent_brand_id (matched.map (fun sub => sub.1))]) := by
      unfold update_parent_subsidiaries
      rw [if_neg (show ¬(false = true) by simp)]
    rw [hr]
    simp [List.append_assoc]

/-- C8, amended: during resolution, a failed contact social-merge write and
each failed child parent-reference write increments `errors` by exactly one,
never aborts processing, and never touches the review queue or the unmatched
list — but a failed parent subsidiary-set merge in
`_upload_subsidiary_info` is only logged: it is **not** counted in
`errors` (see the counterexample), contradicting the claim's "every kind of
write". -/
theorem C8_write_failures_counted (fc : FirebaseClient) (st : UploadState)
    (brand_id parent_brand_id parent_name : String) (contact : Row)
    (matched : List (String × Brand × ℚ)) :
    ((uploadContactInfo fc false st brand_id contact).manual_review_queue =
        st.manual_review_queue ∧
      (uploadContactInfo fc false st brand_id contact).unmatched_companies =
        st.unmatched_companies ∧
      (uploadContactInfo fc false st brand_id contact).stats.errors =
        st.stats.errors +
          (if socialUpdates contact ≠ [] ∧
              fc.outcome (.social brand_id (socialUpdates contact)) = false
            then 1 else 0)) ∧
    ((uploadSubsidiaryInfo fc false st parent_brand_id parent_name
          matched).manual_review_queue = st.manual_review_queue ∧
      (uploadSubsidiaryInfo fc false st parent_brand_id parent_name
          matched).unmatched_companies = st.unmatched_companies ∧
      (uploadSubsidiaryInfo fc false st parent_brand_id parent_name
          matched).stats.errors =
        st.stats.errors + matched.countP (fun sub => !fc.outcome
          (.parentInfo sub.1 (some parent_name) (some parent_brand_id)))) := by
  rw [uploadContactInfo_spec, uploadSubsidiaryInfo_spec]
  simp

/-- C8, counterexample.  The claim says every kind of write failure is
counted in `errors`, naming the parent subsidiary-set merge explicitly.
But `_upload_subsidiary_info` only logs a failed
`update_parent_subsidiaries` call: with an oracle failing exactly those
writes, the write is attempted (it is in the trace and its outcome is
failure) yet `errors` stays `0`. -/
theorem C8_counterexample :
    fcFailParentSubs.outcome (.parentSubs "p1" ["c1"]) = false ∧
    (uploadSubsidiaryInfo fcFailParentSubs false {} "p1" "Acme"
        [("c1", brandY, 100)]).trace =
      [.parentSubs "p1" ["c1"], .parentInfo "c1" (some "Acme") (some "p1")] ∧
    (uploadSubsidiaryInfo fcFailParentSubs false {} "p1" "Acme"
        [("c1", brandY, 100)]).stats.errors = 0 := by
  refine ⟨by decide, by decide, by decide⟩

/-- C10: a contact that classifies as auto-accept but whose mapped social
fields all strip to empty produces no write at all and cannot bump
`errors`: `_upload_contact_info` returns before calling Firestore when
`social_updates` is empty, so the state changes only by the
processed/matched/auto-accepted counters. -/
theorem C10_blank_auto_accept_frame (cfg : UploaderCfg) (fc : FirebaseClient)
    (brands : List (String × Brand)) (st : UploadState) (contact : Row)
    (brand : Brand) (sc : ℚ)
    (hskip : singleSkip cfg.single_company
      (pyStripStr (contact.get "company_clean")) = false)
    (hname : pyStripStr (contact.get "company_clean") ≠ "")
    (hfb : find_best_match cfg.matcher cfg.rf
        (normalize_company_name (some (pyStripStr (contact.get "company_clean"))))
        brands = (some brand, sc, "auto_accept"))
    (hup : socialUpdates contact = []) :
    processContact cfg fc brands st contact =
      { st with stats := { st.stats with
          contacts_processed := st.stats.contacts_processed + 1
          contacts_matched := st.stats.contacts_matched + 1
          contacts_auto_accepted := st.stats.contacts_auto_accepted + 1 } } := by
  simp only [processContact]
  rw [hskip]
  rw [if_neg (by simp), if_neg hname, hfb]
  simp only [String.reduceEq, reduceIte]
  rw [uploadContactInfo_empty _ _ _ _ _ hup]

/-- C10, witness: the frame theorem evaluated at a contact row whose social
fields are blank, a metric that always scores `100` (auto-accept) and an
oracle failing every write: the final state still has exactly the three
counters bumped and an empty trace. -/
theorem C10_witness :
    processContact ⟨{}, fuzz100, false, none⟩ fcFalse brandsZ {} contactRowBlank =
      { ({} : UploadState) with stats := { ({} : UploadState).stats with
          contacts_processed := ({} : UploadState).stats.contacts_processed + 1
          contacts_matched := ({} : UploadState).stats.contacts_matched + 1
          contacts_auto_accepted :=
            ({} : UploadState).stats.contacts_auto_accepted + 1 } } :=
  C10_blank_auto_accept_frame ⟨{}, fuzz100, false, none⟩ fcFalse brandsZ {}
    contactRowBlank brandZ 100 (by decide) (by decide) (by decide) (by decide)

/-- C6, amended: on `skip` the item is kept with no write and on `reject`
it is removed with no write, as claimed; on `accept` the prescribed writes
are performed only for `contact` and `subsidiary` items.  A
`subsidiary_parent` (group) item is removed on accept with **zero** writes
(the `'a'` branch of `process_review_item` has no case for it), and an
accepted `contact` item whose social write fails is **kept**, not removed —
both contradicting the claim (see the counterexample). -/
theorem C6_adjudicator_actions (fc : FirebaseClient) (dry_run : Bool)
    (item : ReviewItem) (choice : String) :
    (pyLowerStr choice = "s" →
      process_review_item item choice fc dry_run = (false, [])) ∧
    (pyLowerStr choice = "r" →
      process_review_item item choice fc dry_run = (true, [])) ∧
    (pyLowerStr choice = "a" → item.isGroup = true →
      process_review_item item choice fc dry_run = (true, [])) ∧
    (pyLowerStr choice = "a" →
      ∀ pn pb sn nsn sb sc tm, item = .subsidiary pn pb sn nsn sb sc tm →
        process_review_item item choice fc dry_run =
          (true, if dry_run = true then [] else
            [.parentSubs pb.brand_id [sb.brand_id],
             .parentInfo sb.brand_id (some pn) (some pb.brand_id)])) ∧
    (pyLowerStr choice = "a" →
      ∀ cn ncn bm sc cd tm, item = .contact cn ncn bm sc cd tm →
        process_review_item item choice fc dry_run =
          (if socialUpdates cd = [] ∨ dry_run = true then (true, [])
           else (fc.outcome (.social bm.brand_id (socialUpdates cd)),
                 [.social bm.brand_id (socialUpdates cd)]))) := by
  refine ⟨?_, ?_, ?_, ?_, ?_⟩
  · intro hs
    unfold process_review_item
    rw [if_pos hs]
  · intro hr
    unfold process_review_item
    rw [if_neg (by rw [hr]; decide), if_pos hr]
  · intro ha hg
    unfold process_review_item
    rw [if_neg (by rw [ha]; decide), if_neg (by rw [ha]; decide), if_pos ha]
    cases item with
    | contact cn ncn bm sc cd tm => exact absurd hg (by simp [ReviewItem.isGroup])
    | subsidiary pn pb sn nsn sb sc tm =>
      exact absurd hg (by simp [ReviewItem.isGroup])
    | subsidiaryParent pn npn pb sc subs tm => rfl
  · intro ha pn pb sn nsn sb sc tm hitem
    subst hitem
    unfold process_review_item
    rw [if_neg (by rw [ha]; decide), if_neg (by rw [ha]; decide), if_pos ha]
    unfold update_parent_subsidiaries update_brand_parent_info
    cases dry_run with
    | true => simp
    | false => simp
  · intro ha cn ncn bm sc cd tm hitem
    subst hitem
    unfold process_review_item update_brand_social
    rw [if_neg (by rw [ha]; decide), if_neg (by rw [ha]; decide), if_pos ha]
    by_cases hup : socialUpdates cd = []
    · simp [hup]
    · cases dry_run with
      | true => simp [hup]
      | false =>
        cases hout : fc.outcome (.social bm.brand_id (socialUpdates cd)) with
        | true => simp [hup, hout]
        | false => simp [hup, hout]

/-- C6, counterexample.  On `accept`, a `subsidiary_parent` (group) item is
consumed with zero Firestore writes while an accepted `subsidiary` item
does produce writes; and an accepted `contact` item whose write fails is
reported unprocessed (kept in the remaining list), not removed. -/
theorem C6_counterexample :
    process_review_item groupItem1 "a" fcTrue false = (true, []) ∧
    (process_review_item subItem1 "a" fcTrue false).2 ≠ [] ∧
    process_review_item contactItem1 "a" fcFalse false =
      (false, [.social "b1" [("twitter", "x.com/acme")]]) := by
  refine ⟨by decide, by decide, by decide⟩

/-- C6, witness: the amended theorem evaluated on the three fixture items —
skip keeps, reject removes silently, accepting the group item writes
nothing, accepting the subsidiary item issues its two writes. -/
theorem C6_witness :
    process_review_item contactItem1 "s" fcTrue false = (false, []) ∧
    process_review_item contactItem1 "r" fcTrue false = (true, []) ∧
    process_review_item groupItem1 "a" fcFalse false = (true, []) ∧
    process_review_item subItem1 "a" fcTrue false =
      (true, if false = true then [] else
        [.parentSubs brandZ.brand_id [brandY.brand_id],
         .parentInfo brandY.brand_id (some "Acme") (some brandZ.brand_id)]) :=
  ⟨(C6_adjudicator_actions fcTrue false contactItem1 "s").1 (by decide),
   (C6_adjudicator_actions fcTrue false contactItem1 "r").2.1 (by decide),
   (C6_adjudicator_actions fcFalse false groupItem1 "a").2.2.1 (by decide)
     (by decide),
   (C6_adjudicator_actions fcTrue false subItem1 "a").2.2.2.1 (by decide)
     "Acme" brandZ "Beta" "beta" brandY 85 [] rfl⟩

/-- The bookkeeping invariant of the review loop: whenever the session ends
normally (a quit, or the queue drains), the processed count plus the number
of items written back accounts for every item, and the written-back list is
a subsequence of `remaining ++ pending` (so relative order is preserved). -/
lemma reviewGo_spec (fc : FirebaseClient) (dry_run : Bool) :
    ∀ (inputs : List String) (pending remaining : List ReviewItem)
      (trace : List WriteOp) (count : ℕ)
      (saved : List ReviewItem) (tr : List WriteOp) (c : ℕ),
      reviewGo fc dry_run pending remaining inputs trace count =
        some (saved, tr, c) →
      count ≤ c ∧
      (c - count) + saved.length = remaining.length + pending.length ∧
      saved.Sublist (remaining ++ pending) := by
  intro inputs
  induction inputs with
  | nil =>
    intro pending remaining trace count saved tr c h
    cases pending with
    | nil =>
      unfold reviewGo at h
      injection h with h
      injection h with h1 h2
      injection h2 with h2 h3
      subst h1; subst h3
      exact ⟨le_refl _, by simp, by simp⟩
    | cons item rest =>
      exact absurd h (by unfold reviewGo; simp)
  | cons line ins ih =>
    intro pending remaining trace count saved tr c h
    cases pending with
    | nil =>
      unfold reviewGo at h
      injection h with h
      injection h with h1 h2
      injection h2 with h2 h3
      subst h1; subst h3
      exact ⟨le_refl _, by simp, by simp⟩
    | cons item rest =>
      unfold reviewGo at h
      by_cases hq : pyLowerStr (pyStripStr line) = "q"
      · rw [if_pos hq] at h
        injection h with h
        injection h with h1 h2
        injection h2 with h2 h3
        subst h1; subst h3
        exact ⟨le_refl _, by simp, List.Sublist.refl _⟩
      · rw [if_neg hq] at h
        by_cases hc : pyLowerStr (pyStripStr line) = "a" ∨
            pyLowerStr (pyStripStr line) = "r" ∨ pyLowerStr (pyStripStr line) = "s"
        · rw [if_pos hc] at h
          simp only [] at h
          cases hr1 : (process_review_item item (pyLowerStr (pyStripStr line))
              fc dry_run).1 with
          | true =>
            rw [hr1] at h
            rw [if_pos rfl] at h
            obtain ⟨hle, hlen, hsub⟩ := ih rest remaining _ (count + 1) saved tr c h
            refine ⟨by omega, by simp at hlen ⊢; omega, ?_⟩
            exact hsub.trans (List.Sublist.append_left
              (List.sublist_cons_self item rest) remaining)
          | false =>
            rw [hr1] at h
            rw [if_neg (by simp)] at h
            obtain ⟨hle, hlen, hsub⟩ := ih rest (remaining ++ [item]) _ count saved tr c h
            refine ⟨hle, by simp at hlen ⊢; omega, ?_⟩
            have : remaining ++ [item] ++ rest = remaining ++ (item :: rest) := by simp
            rw [this] at hsub
            exact hsub
        · rw [if_neg hc] at h
          exact ih (item :: rest) remaining trace count saved tr c h

/-- C7, amended: in every review session that ends normally, the saved file
holds the not-yet-visited items plus the kept items in their original
relative order (a subsequence of the loaded queue), and its size is exactly
`T - N` where `N` is `processed_count` — the number of items *successfully*
accepted plus the rejected ones.  An accepted contact item whose write
fails is kept and not counted, so `N` can be smaller than the number of
accept/reject choices the reviewer made (see the counterexample). -/
theorem C7_review_session_accounting (fc : FirebaseClient) (dry_run : Bool)
    (items : List ReviewItem) (inputs : List String)
    (saved : List ReviewItem) (tr : List WriteOp) (c : ℕ)
    (h : runReview fc dry_run items inputs = some (saved, tr, c)) :
    c + saved.length = items.length ∧ saved.Sublist items := by
  obtain ⟨hle, hlen, hsub⟩ := reviewGo_spec fc dry_run inputs items [] [] 0 saved tr c h
  simp at hlen hsub
  exact ⟨by omega, hsub⟩

/-- C7, counterexample.  The claim says accepting or rejecting `N` items
leaves `T - N` items saved.  Reviewing a single contact item (`T = 1`)
against an oracle on which the write fails, the reviewer accepts it
(`N = 1`): the write is attempted, fails, the item is kept, and the saved
file still holds `1 ≠ T - N = 0` item (with `processed_count = 0`). -/
theorem C7_counterexample :
    runReview fcFalse false [contactItem1] ["a"] =
      some ([contactItem1], [.social "b1" [("twitter", "x.com/acme")]], 0) := by
  decide

/-- C7, witness: a two-item session in which the first item is accepted
(write succeeds) and the reviewer then quits: the processed count plus the
saved size accounts for both items, and the saved list is a subsequence of
the loaded queue. -/
theorem C7_witness :
    2 + ([subItem1] : List ReviewItem).length =
      ([contactItem1, subItem1] : List ReviewItem).length + 1 ∧
    ([subItem1] : List ReviewItem).Sublist [contactItem1, subItem1] := by
  have h := C7_review_session_accounting fcTrue false [contactItem1, subItem1]
    ["a", "q"] [subItem1] [.social "b1" [("twitter", "x.com/acme")]] 1 (by decide)
  exact ⟨by omega, h.2⟩

/-- One child iteration of the subsidiary loop never writes and never
touches the statistics or the trace: whatever the child's disposition, it
only appends (subsidiary-type) review items, unmatched entries, or
in-memory matched triples — the same ones for every starting
accumulator. -/
lemma childStep_spec (cfg : UploaderCfg) (brands : List (String × Brand))
    (parent_name : String) (parent_brand : Brand) (sub_row : Row) :
    ∃ (mids : List ReviewItem) (ums : List UnmatchedItem)
      (mat : List (String × Brand × ℚ)),
      (∀ it ∈ mids, it.isGroup = false) ∧
      ∀ acc : UploadState × List (String × Brand × ℚ),
        childStep cfg brands parent_name parent_brand acc sub_row =
          ({ acc.1 with
              manual_review_queue := acc.1.manual_review_queue ++ mids
              unmatched_companies := acc.1.unmatched_companies ++ ums },
            acc.2 ++ mat) := by
  rcases hfb : find_best_match cfg.matcher cfg.rf
      (normalize_company_name
        (some (pyStripStr (sub_row.get "subsidiary_name_raw"))))
      brands with ⟨ob, sc, disp⟩
  cases ob with
  | none =>
    refine ⟨[], [.subsidiary (pyStripStr (sub_row.get "subsidiary_name_raw"))
        parent_name
        (normalize_company_name
          (some (pyStripStr (sub_row.get "subsidiary_name_raw")))) sc],
      [], by simp, ?_⟩
    intro acc
    simp only [childStep, hfb]
    simp
  | some sb =>
    by_cases hrj : disp = "reject"
    · refine ⟨[], [.subsidiary (pyStripStr (sub_row.get "subsidiary_name_raw"))
          parent_name
          (normalize_company_name
            (some (pyStripStr (sub_row.get "subsidiary_name_raw")))) sc],
        [], by simp, ?_⟩
      intro acc
      simp only [childStep, hfb]
      simp [hrj]
    · by_cases haa : disp = "auto_accept"
      · refine ⟨[], [], [(sb.brand_id, sb, sc)], by simp, ?_⟩
        intro acc
        simp only [childStep, hfb]
        simp [hrj, haa]
      · by_cases hmr : disp = "manual_review"
        · refine ⟨[.subsidiary parent_name parent_brand
              (pyStripStr (sub_row.get "subsidiary_name_raw"))
              (normalize_company_name
                (some (pyStripStr (sub_row.get "subsidiary_name_raw")))) sb sc
              (find_all_matches cfg.rf
                (normalize_company_name
                  (some (pyStripStr (sub_row.get "subsidiary_name_raw"))))
                brands 5)],
            [], [], by simp [ReviewItem.isGroup], ?_⟩
          intro acc
          simp only [childStep, hfb]
          simp [hrj, haa, hmr]
        · refine ⟨[], [], [], by simp, ?_⟩
          intro acc
          simp only [childStep, hfb]
          simp [hrj, haa, hmr]

/-- The whole inner subsidiary loop in frame form: statistics and trace are
untouched (in particular no Firestore write happens), and the queues and
the in-memory matched list receive fixed suffixes that do not depend on the
starting state. -/
lemma childFold_spec (cfg : UploaderCfg) (brands : List (String × Brand))
    (parent_name : String) (parent_brand : Brand) (subs : List Row) :
    ∃ (mids : List ReviewItem) (ums : List UnmatchedItem)
      (mat : List (String × Brand × ℚ)),
      (∀ it ∈ mids, it.isGroup = false) ∧
      ∀ (st : UploadState) (m0 : List (String × Brand × ℚ)),
        subs.foldl (childStep cfg brands parent_name parent_brand) (st, m0) =
          ({ st with
              manual_review_queue := st.manual_review_queue ++ mids
              unmatched_companies := st.unmatched_companies ++ ums },
            m0 ++ mat) := by
  induction subs with
  | nil => exact ⟨[], [], [], by simp, fun st m0 => by simp⟩
  | cons srow rest ih =>
    obtain ⟨m1, u1, a1, hg1, hstep⟩ :=
      childStep_spec cfg brands parent_name parent_brand srow
    obtain ⟨m2, u2, a2, hg2, hrest⟩ := ih
    refine ⟨m1 ++ m2, u1 ++ u2, a1 ++ a2, ?_, ?_⟩
    · intro it hit
      rcases List.mem_append.mp hit with h | h
      exacts [hg1 it h, hg2 it h]
    · intro st m0
      rw [List.foldl_cons, hstep (st, m0), hrest]
      simp [List.append_assoc]

/-- C5: when a subsidiary group's parent classifies as manual review, the
run performs zero Firestore writes for that group (the trace is exactly the
incoming one) — even though auto-accept children were recorded in the
in-memory matched list — and appends exactly one group review item of type
`subsidiary_parent` carrying all of the group's raw child rows; the other
appended review items (children needing review) are not group items. -/
theorem C5_manual_review_group_zero_writes (cfg : UploaderCfg)
    (fc : FirebaseClient) (brands : List (String × Brand)) (st : UploadState)
    (grp : String × List Row) (pb : Brand) (sc : ℚ)
    (hskip : singleSkip cfg.single_company grp.1 = false)
    (hfb : find_best_match cfg.matcher cfg.rf
        (normalize_company_name (some grp.1)) brands =
      (some pb, sc, "manual_review")) :
    ∃ (mids : List ReviewItem) (ums : List UnmatchedItem),
      (∀ it ∈ mids, it.isGroup = false) ∧
      processGroup cfg fc brands st grp =
        { stats := { st.stats with
            subsidiaries_processed := st.stats.subsidiaries_processed + 1
            subsidiaries_manual_review :=
              st.stats.subsidiaries_manual_review + 1 }
          manual_review_queue := st.manual_review_queue ++ mids ++
            [.subsidiaryParent grp.1 (normalize_company_name (some grp.1)) pb sc
              grp.2 (find_all_matches cfg.rf
                (normalize_company_name (some grp.1)) brands 5)]
          unmatched_companies := st.unmatched_companies ++ ums
          trace := st.trace } := by
  obtain ⟨mids, ums, mat, hg, hfold⟩ := childFold_spec cfg brands grp.1 pb grp.2
  refine ⟨mids, ums, hg, ?_⟩
  simp only [processGroup]
  rw [hskip]
  rw [if_neg (by simp), hfb]
  simp only [String.reduceEq, reduceIte]
  rw [hfold]
  simp [List.append_assoc]

/-- C5, witness: the group theorem evaluated on the one-parent, one-child
fixture with a metric scoring everything `85` (manual review for parent and
child alike): the final state has only the two counters bumped, the child
review item plus the single group item queued, and an empty trace. -/
theorem C5_witness :
    ∃ (mids : List ReviewItem) (ums : List UnmatchedItem),
      (∀ it ∈ mids, it.isGroup = false) ∧
      processGroup ⟨{}, fuzz85, false, none⟩ fcTrue brandsZ {}
          ("Acme", [subRow1]) =
        { stats := { ({} : UploadState).stats with
            subsidiaries_processed :=
              ({} : UploadState).stats.subsidiaries_processed + 1
            subsidiaries_manual_review :=
              ({} : UploadState).stats.subsidiaries_manual_review + 1 }
          manual_review_queue := ({} : UploadState).manual_review_queue ++
            mids ++
            [.subsidiaryParent "Acme" (normalize_company_name (some "Acme"))
              brandZ 85 [subRow1]
              (find_all_matches fuzz85 (normalize_company_name (some "Acme"))
                brandsZ 5)]
          unmatched_companies := ({} : UploadState).unmatched_companies ++ ums
          trace := ({} : UploadState).trace } :=
  C5_manual_review_group_zero_writes ⟨{}, fuzz85, false, none⟩ fcTrue brandsZ
    {} ("Acme", [subRow1]) brandZ 85 (by decide) (by decide)

/-- In dry-run mode, or against a store on which every write succeeds,
`_upload_contact_info` changes nothing but the trace. -/
lemma uploadContactInfo_obs_id (fc : FirebaseClient) (d : Bool)
    (st : UploadState) (bid : String) (contact : Row)
    (h : d = true ∨ ∀ op, fc.outcome op = true) :
    (uploadContactInfo fc d st bid contact).obs = st.obs := by
  rw [uploadContactInfo_spec]
  unfold UploadState.obs
  rcases h with h | h
  · subst h; simp
  · simp [h]

/-- In dry-run mode, or against a store on which every write succeeds,
`_upload_subsidiary_info` changes nothing but the trace. -/
lemma uploadSubsidiaryInfo_obs_id (fc : FirebaseClient) (d : Bool)
    (st : UploadState) (pbid pname : String)
    (matched : List (String × Brand × ℚ))
    (h : d = true ∨ ∀ op, fc.outcome op = true) :
    (uploadSubsidiaryInfo fc d st pbid pname matched).obs = st.obs := by
  rw [uploadSubsidiaryInfo_spec]
  unfold UploadState.obs
  rcases h with h | h
  · subst h; simp
  · have hz : matched.countP (fun sub => !fc.outcome
        (.parentInfo sub.1 (some pname) (some pbid))) = 0 :=
      List.countP_eq_zero.mpr (fun sub _ => by simp [h])
    simp [hz]

/-- A dry `_upload_contact_info` call leaves the trace untouched. -/
lemma uploadContactInfo_dry_trace (fc : FirebaseClient) (st : UploadState)
    (bid : String) (contact : Row) :
    (uploadContactInfo fc true st bid contact).trace = st.trace := by
  rw [uploadContactInfo_spec]
  simp

/-- A dry `_upload_subsidiary_info` call leaves the trace untouched. -/
lemma uploadSubsidiaryInfo_dry_trace (fc : FirebaseClient) (st : UploadState)
    (pbid pname : String) (matched : List (String × Brand × ℚ)) :
    (uploadSubsidiaryInfo fc true st pbid pname matched).trace = st.trace := by
  rw [uploadSubsidiaryInfo_spec]
  simp

/-- `childStep` reads only the matcher and the metrics of its
configuration, so the dry-run flag and the single-company filter are
irrelevant to it. -/
lemma childStep_cfg (m : FuzzyMatcher) (rf : RapidFuzz) (d1 d2 : Bool)
    (s1 s2 : Option String) :
    childStep ⟨m, rf, d1, s1⟩ = childStep ⟨m, rf, d2, s2⟩ := rfl

/-- Two contact iterations that share matcher, metrics and single-company
filter, run from states agreeing on everything but the trace, and whose
writes cannot fail (dry run, or an all-success store): they produce the
same classifications, queues and statistics, and a dry run adds nothing to
the trace. -/
lemma processContact_master (m : FuzzyMatcher) (rf : RapidFuzz)
    (single : Option String) (d1 d2 : Bool) (fc1 fc2 : FirebaseClient)
    (h1 : d1 = true ∨ ∀ op, fc1.outcome op = true)
    (h2 : d2 = true ∨ ∀ op, fc2.outcome op = true)
    (brands : List (String × Brand)) (contact : Row)
    (st1 st2 : UploadState) (hobs : st1.obs = st2.obs) :
    (processContact ⟨m, rf, d1, single⟩ fc1 brands st1 contact).obs =
      (processContact ⟨m, rf, d2, single⟩ fc2 brands st2 contact).obs ∧
    (d1 = true →
      (processContact ⟨m, rf, d1, single⟩ fc1 brands st1 contact).trace =
        st1.trace) := by
  have hs : st1.stats = st2.stats := congrArg Prod.fst hobs
  have hq : st1.manual_review_queue = st2.manual_review_queue :=
    congrArg (fun x => x.2.1) hobs
  have hu : st1.unmatched_companies = st2.unmatched_companies :=
    congrArg (fun x => x.2.2) hobs
  simp only [processContact]
  by_cases hskip : singleSkip single (pyStripStr (contact.get "company_clean")) = true
  · simp [hskip, hobs]
  · simp only [if_neg hskip]
    by_cases hname : pyStripStr (contact.get "company_clean") = ""
    · simp [hname, hobs]
    · simp only [if_neg hname]
      rcases hfb : find_best_match m rf
          (normalize_company_name (some (pyStripStr (contact.get "company_clean"))))
          brands with ⟨ob, sc, disp⟩
      cases ob with
      | none =>
        refine ⟨?_, ?_⟩
        · simp [UploadState.obs, hs, hq, hu]
        · intro hd; simp
      | some brand =>
        by_cases hrj : disp = "reject"
        · subst hrj
          refine ⟨?_, ?_⟩
          · simp [UploadState.obs, hs, hq, hu]
          · intro hd; simp
        · by_cases haa : disp = "auto_accept"
          · subst haa
            refine ⟨?_, ?_⟩
            · simp only [String.reduceEq, reduceIte]
              rw [uploadContactInfo_obs_id _ _ _ _ _ h1,
                uploadContactInfo_obs_id _ _ _ _ _ h2]
              simp [UploadState.obs, hs, hq, hu]
            · intro hd
              subst hd
              simp only [String.reduceEq, reduceIte]
              rw [uploadContactInfo_dry_trace]
          · by_cases hmr : disp = "manual_review"
            · subst hmr
              refine ⟨?_, ?_⟩
              · simp [UploadState.obs, hs, hq, hu]
              · intro hd; simp
            · refine ⟨?_, ?_⟩
              · simp [hrj, haa, hmr, UploadState.obs, hs, hq, hu]
              · intro hd; simp [hrj, haa, hmr]

/-- `process_contacts` under the two-run setup of `processContact_master`:
same observable outcome, and a dry run never touches the trace. -/
lemma process_contacts_master (m : FuzzyMatcher) (rf : RapidFuzz)
    (single : Option String) (d1 d2 : Bool) (fc1 fc2 : FirebaseClient)
    (h1 : d1 = true ∨ ∀ op, fc1.outcome op = true)
    (h2 : d2 = true ∨ ∀ op, fc2.outcome op = true)
    (brands : List (String × Brand)) (contacts : List Row) :
    ∀ (st1 st2 : UploadState), st1.obs = st2.obs →
    (process_contacts ⟨m, rf, d1, single⟩ fc1 brands contacts st1).obs =
      (process_contacts ⟨m, rf, d2, single⟩ fc2 brands contacts st2).obs ∧
    (d1 = true →
      (process_contacts ⟨m, rf, d1, single⟩ fc1 brands contacts st1).trace =
        st1.trace) := by
  induction contacts with
  | nil => exact fun st1 st2 hobs => ⟨hobs, fun _ => rfl⟩
  | cons c rest ih =>
    intro st1 st2 hobs
    obtain ⟨ho, ht⟩ := processContact_master m rf single d1 d2 fc1 fc2 h1 h2
      brands c st1 st2 hobs
    obtain ⟨ho2, ht2⟩ := ih _ _ ho
    simp only [process_contacts, List.foldl_cons] at ho2 ht2 ⊢
    exact ⟨ho2, fun hd => (ht2 hd).trans (ht hd)⟩

/-- Two group iterations that share matcher, metrics and single-company
filter, from trace-divergent states, with infallible writes: same
observable outcome, and a dry run adds nothing to the trace. -/
lemma processGroup_master (m : FuzzyMatcher) (rf : RapidFuzz)
    (single : Option String) (d1 d2 : Bool) (fc1 fc2 : FirebaseClient)
    (h1 : d1 = true ∨ ∀ op, fc1.outcome op = true)
    (h2 : d2 = true ∨ ∀ op, fc2.outcome op = true)
    (brands : List (String × Brand)) (grp : String × List Row)
    (st1 st2 : UploadState) (hobs : st1.obs = st2.obs) :
    (processGroup ⟨m, rf, d1, single⟩ fc1 brands st1 grp).obs =
      (processGroup ⟨m, rf, d2, single⟩ fc2 brands st2 grp).obs ∧
    (d1 = true →
      (processGroup ⟨m, rf, d1, single⟩ fc1 brands st1 grp).trace =
        st1.trace) := by
  have hs : st1.stats = st2.stats := congrArg Prod.fst hobs
  have hq : st1.manual_review_queue = st2.manual_review_queue :=
    congrArg (fun x => x.2.1) hobs
  have hu : st1.unmatched_companies = st2.unmatched_companies :=
    congrArg (fun x => x.2.2) hobs
  simp only [processGroup]
  by_cases hskip : singleSkip single grp.1 = true
  · simp [hskip, hobs]
  · simp only [if_neg hskip]
    rcases hfb : find_best_match m rf (normalize_company_name (some grp.1))
      brands with ⟨ob, sc, disp⟩
    cases ob with
    | none =>
      refine ⟨?_, ?_⟩
      · simp [UploadState.obs, hs, hq, hu]
      · intro hd; simp
    | some pb =>
      by_cases hrj : disp = "reject"
      · subst hrj
        refine ⟨?_, ?_⟩
        · simp [UploadState.obs, hs, hq, hu]
        · intro hd; simp
      · obtain ⟨mids, ums, mat, hg, hfold⟩ :=
          childFold_spec ⟨m, rf, d1, single⟩ brands grp.1 pb grp.2
        have hsame : ∀ (p : UploadState × List (String × Brand × ℚ)),
            grp.2.foldl (childStep ⟨m, rf, d2, single⟩ brands grp.1 pb) p =
            grp.2.foldl (childStep ⟨m, rf, d1, single⟩ brands grp.1 pb) p :=
          fun p => by rw [childStep_cfg m rf d2 d1 single single]
        simp only [if_neg hrj, hsame, hfold]
        by_cases haa : disp = "auto_accept"
        · subst haa
          by_cases hmat : mat = []
          · subst hmat
            refine ⟨?_, ?_⟩
            · simp [UploadState.obs, hs, hq, hu]
            · intro hd; simp
          · refine ⟨?_, ?_⟩
            · simp only [hmat, String.reduceEq, reduceIte, List.nil_append,
                not_false_iff, true_and, and_true, eq_self_iff_true, if_true]
              rw [if_pos hmat, if_pos hmat]
              rw [uploadSubsidiaryInfo_obs_id _ _ _ _ _ _ h1,
                uploadSubsidiaryInfo_obs_id _ _ _ _ _ _ h2]
              simp [UploadState.obs, hs, hq, hu]
            · intro hd
              subst hd
              simp only [hmat, String.reduceEq, reduceIte, List.nil_append,
                not_false_iff, true_and, and_true, eq_self_iff_true, if_true]
              rw [if_pos hmat]
              rw [uploadSubsidiaryInfo_dry_trace]
        · by_cases hmr : disp = "manual_review"
          · subst hmr
            refine ⟨?_, ?_⟩
            · simp [UploadState.obs, hs, hq, hu]
            · intro hd; simp
          · refine ⟨?_, ?_⟩
            · simp [haa, hmr, UploadState.obs, hs, hq, hu]
            · intro hd; simp [haa, hmr]

/-- `process_subsidiaries` under the two-run setup: same observable
outcome, and a dry run never touches the trace.  The grouping pass does not
depend on the configuration at all. -/
lemma process_subsidiaries_master (m : FuzzyMatcher) (rf : RapidFuzz)
    (single : Option String) (d1 d2 : Bool) (fc1 fc2 : FirebaseClient)
    (h1 : d1 = true ∨ ∀ op, fc1.outcome op = true)
    (h2 : d2 = true ∨ ∀ op, fc2.outcome op = true)
    (brands : List (String × Brand)) (rows : List Row) :
    ∀ (st1 st2 : UploadState), st1.obs = st2.obs →
    (process_subsidiaries ⟨m, rf, d1, single⟩ fc1 brands rows st1).obs =
      (process_subsidiaries ⟨m, rf, d2, single⟩ fc2 brands rows st2).obs ∧
    (d1 = true →
      (process_subsidiaries ⟨m, rf, d1, single⟩ fc1 brands rows st1).trace =
        st1.trace) := by
  unfold process_subsidiaries
  generalize buildGroups rows = groups
  induction groups with
  | nil => exact fun st1 st2 hobs => ⟨hobs, fun _ => rfl⟩
  | cons g rest ih =>
    intro st1 st2 hobs
    obtain ⟨ho, ht⟩ := processGroup_master m rf single d1 d2 fc1 fc2 h1 h2
      brands g st1 st2 hobs
    obtain ⟨ho2, ht2⟩ := ih _ _ ho
    simp only [List.foldl_cons] at ho2 ht2 ⊢
    exact ⟨ho2, fun hd => (ht2 hd).trans (ht hd)⟩

/-- C9: every dry-run write helper is a no-op reporting success, and a
dry run (against any store) has exactly the same classifications, review
queue, unmatched list and statistics as a live run (against a store on
which every write succeeds) on the same inputs — moreover the dry run
attempts no write at all (its trace is unchanged). -/
theorem C9_dry_run_noninterference (m : FuzzyMatcher) (rf : RapidFuzz)
    (single : Option String) (fc1 fc2 : FirebaseClient)
    (brands : List (String × Brand)) (contacts rows : List Row)
    (st1 st2 : UploadState)
    (hsucc : ∀ op, fc2.outcome op = true) (hobs : st1.obs = st2.obs) :
    (∀ bid ups, update_brand_social fc1 bid ups true = (true, [])) ∧
    (∀ bid pc pid, update_brand_parent_info fc1 bid pc pid true = (true, [])) ∧
    (∀ pid subs, update_parent_subsidiaries fc1 pid subs true = (true, [])) ∧
    (runUpload ⟨m, rf, true, single⟩ fc1 brands contacts rows st1).obs =
      (runUpload ⟨m, rf, false, single⟩ fc2 brands contacts rows st2).obs ∧
    (runUpload ⟨m, rf, true, single⟩ fc1 brands contacts rows st1).trace =
      st1.trace := by
  have h1 : (true : Bool) = true ∨ ∀ op, fc1.outcome op = true := Or.inl rfl
  have h2 : (false : Bool) = true ∨ ∀ op, fc2.outcome op = true := Or.inr hsucc
  obtain ⟨hoc, htc⟩ := process_contacts_master m rf single true false fc1 fc2
    h1 h2 brands contacts st1 st2 hobs
  obtain ⟨hos, hts⟩ := process_subsidiaries_master m rf single true false fc1
    fc2 h1 h2 brands rows _ _ hoc
  refine ⟨fun bid ups => rfl, fun bid pc pid => rfl, fun pid subs => rfl, ?_, ?_⟩
  · exact hos
  · unfold runUpload
    exact (hts rfl).trans (htc rfl)

/-- C9, witness: the noninterference theorem evaluated on one contact row
and one subsidiary row against a single brand, with a metric scoring
everything `100`: the dry run against an always-failing store and the live
run against an always-succeeding store agree on everything observable, and
the dry run's trace stays empty. -/
theorem C9_witness :
    (∀ bid ups, update_brand_social fcFalse bid ups true = (true, [])) ∧
    (∀ bid pc pid,
      update_brand_parent_info fcFalse bid pc pid true = (true, [])) ∧
    (∀ pid subs, update_parent_subsidiaries fcFalse pid subs true = (true, [])) ∧
    (runUpload ⟨{}, fuzz100, true, none⟩ fcFalse brandsZ [contactRowTw]
        [subRow1] {}).obs =
      (runUpload ⟨{}, fuzz100, false, none⟩ fcTrue brandsZ [contactRowTw]
        [subRow1] {}).obs ∧
    (runUpload ⟨{}, fuzz100, true, none⟩ fcFalse brandsZ [contactRowTw]
        [subRow1] {}).trace = ({} : UploadState).trace :=
  C9_dry_run_noninterference {} fuzz100 none fcFalse fcTrue brandsZ
    [contactRowTw] [subRow1] {} {} (fun _ => rfl) rfl
